import Mathlib

/-!
Verification of the circular-dependency rule of the react-doctor static
analysis engine.  The definitions below are a shallow embedding of the
TypeScript sources: the import extractor (regex `IMPORT_RE`), the relative
specifier resolver, the graph builder, the DFS cycle detector of the rule's
primary implementation, the line locator, the issue synthesizer, and the
alternate transitive-closure implementation of the same rule.
-/

namespace ReactDoctor

/-! ## Data model (`engine/types.ts`) -/

structure ScannedFile where
  path : String
  relPath : String
  content : String
  lines : List String
deriving DecidableEq, Repr

inductive Severity
  | INFO
  | WARN
  | ERROR
deriving DecidableEq, Repr

structure Issue where
  id : String
  severity : Severity
  message : String
  filePath : String
  line : Option Nat
  ruleId : String
deriving DecidableEq, Repr

/-! ## Character classes and string helpers -/

/-- Whitespace characters, as matched by the JavaScript regex class. -/
def isSpaceChar (c : Char) : Bool :=
  c = ' ' || c = '\t' || c = '\n' || c = '\r' || c = '\x0b' || c = '\x0c'

/-- A single or double quote, the regex class of quote characters. -/
def isQuoteChar (c : Char) : Bool :=
  c = '"' || c = '\''

/-- Word characters for the JavaScript word-boundary assertion. -/
def isWordChar (c : Char) : Bool :=
  ('a' ≤ c && c ≤ 'z') || ('A' ≤ c && c ≤ 'Z') || ('0' ≤ c && c ≤ '9') || c = '_'

/-- JavaScript `String.prototype.startsWith`. -/
def strStartsWith (pre s : String) : Bool :=
  pre.toList.isPrefixOf s.toList

/-- JavaScript `String.prototype.endsWith`. -/
def strEndsWith (suf s : String) : Bool :=
  suf.toList.reverse.isPrefixOf s.toList.reverse

/-- JavaScript `Array.prototype.join`. -/
def joinSep (sep : String) : List String → String
  | [] => ""
  | x :: xs => xs.foldl (fun acc y => acc ++ sep ++ y) x

/-- `normalize` from `circularDepsRule.ts`: replace every backslash by a slash. -/
def normalize (p : String) : String :=
  String.mk (p.toList.map fun c => if c = '\\' then '/' else c)

/-! ## POSIX path arithmetic (`path.dirname`, `path.join`, `path.relative`) -/

/-- Split a character list at slashes. -/
def splitSegsAux : List Char → List Char → List (List Char)
  | [], acc => [acc.reverse]
  | c :: rest, acc =>
    if c = '/' then acc.reverse :: splitSegsAux rest []
    else splitSegsAux rest (c :: acc)

def splitSegs (s : String) : List String :=
  (splitSegsAux s.toList []).map String.mk

/-- Resolve `.`, `..` and empty segments the way Node's path normalization does
for relative paths: `..` pops a previous real segment and is kept when there is
nothing left to pop. -/
def normSegs : List String → List String → List String
  | [], acc => acc.reverse
  | seg :: rest, acc =>
    if seg = "" || seg = "." then normSegs rest acc
    else if seg = ".." then
      match acc with
      | [] => normSegs rest [".."]
      | top :: acc' =>
        if top = ".." then normSegs rest (".." :: top :: acc')
        else normSegs rest acc'
    else normSegs rest (seg :: acc)

/-- Node `path.join` on two arguments (POSIX separators). -/
def pathJoin (a b : String) : String :=
  let combined := if a = "" then b else if b = "" then a else a ++ "/" ++ b
  let isAbs := strStartsWith "/" combined
  let body := joinSep "/" (normSegs (splitSegs combined) [])
  let res := if isAbs then "/" ++ body else if body = "" then "." else body
  if strEndsWith "/" combined && !(strEndsWith "/" res) then res ++ "/" else res

/-- Drop trailing slashes of a character list. -/
def dropTrailingSlashes (cs : List Char) : List Char :=
  (cs.reverse.dropWhile (fun c => c = '/')).reverse

/-- Node `path.dirname` (POSIX). -/
def pathDirname (p : String) : String :=
  let cs := p.toList
  let cs1 := dropTrailingSlashes cs
  if cs1.isEmpty then (if cs.head? = some '/' then "/" else ".")
  else
    let cs2 := (cs1.reverse.dropWhile (fun c => c ≠ '/')).reverse
    if cs2.isEmpty then "."
    else
      let cs3 := dropTrailingSlashes cs2
      if cs3.isEmpty then "/" else String.mk cs3

/-- Strip the longest common leading run of two segment lists. -/
def stripCommon : List String → List String → (List String × List String)
  | a :: as, b :: bs =>
    if a = b then stripCommon as bs else (a :: as, b :: bs)
  | as, bs => (as, bs)

/-- Node `path.relative` for two paths that are relative to the same root
(as all `relPath`s in a snapshot are). -/
def pathRelative (base dest : String) : String :=
  let p := stripCommon (normSegs (splitSegs base) []) (normSegs (splitSegs dest) [])
  joinSep "/" (p.1.map (fun _ => "..") ++ p.2)

/-! ## Import extractor: the `IMPORT_RE` regex

`IMPORT_RE = /import\s+(?:[^'"]+from\s+)?["']([^"']+)["']|require\(["']([^"']+)["']\)/g`

The matcher below reproduces the JavaScript backtracking semantics of this
concrete pattern: alternatives are tried in order at each start position,
greedy quantifiers backtrack from the longest consumption downwards, and
`matchAll` resumes immediately after the end of each match. -/

/-- Which alternative of `IMPORT_RE` produced a match, and whether the
optional `[^'"]+from\s+` group participated. -/
inductive MatchKind
  | fromImport
  | bareImport
  | requireCall
deriving DecidableEq, Repr

def litImport : List Char := ['i', 'm', 'p', 'o', 'r', 't']

def litFrom : List Char := ['f', 'r', 'o', 'm']

def litRequire : List Char := ['r', 'e', 'q', 'u', 'i', 'r', 'e', '(']

/-- Match `["']([^"']+)["']`: a quote, a non-empty capture of non-quote
characters (greediness is forced, the class excludes the closing quote), and
a closing quote that need not equal the opening one.  Returns the capture and
the remaining input. -/
def tryQuoteCapture (cs : List Char) : Option (List Char × List Char) :=
  match cs with
  | [] => none
  | c :: rest =>
    if isQuoteChar c then
      let cap := rest.takeWhile (fun d => !(isQuoteChar d))
      if cap.isEmpty then none
      else
        match rest.dropWhile (fun d => !(isQuoteChar d)) with
        | d :: rest2 => if isQuoteChar d then some (cap, rest2) else none
        | [] => none
    else none

/-- After the group's character class has consumed its characters: match the
literal `from`, then `\s+` (forced greedy: a quote is not whitespace), then
the quoted capture. -/
def tryAfterFrom (cs : List Char) : Option (List Char × List Char) :=
  if litFrom.isPrefixOf cs then
    let cs1 := cs.drop 4
    if (cs1.takeWhile isSpaceChar).isEmpty then none
    else tryQuoteCapture (cs1.dropWhile isSpaceChar)
  else none

/-- Backtracking loop for `[^'"]+from\s+…`: the class consumes `j` characters
for `j` from the greedy maximum down to `1`. -/
def tryGroupDesc : Nat → List Char → Option (List Char × List Char)
  | 0, _ => none
  | j + 1, cs =>
    match tryAfterFrom (cs.drop (j + 1)) with
    | some r => some r
    | none => tryGroupDesc j cs

/-- After `import\s{k}`: try the optional group first (greedy `?`), then the
group-absent continuation that expects the quoted capture directly. -/
def tryAfterWs (cs : List Char) : Option (MatchKind × List Char × List Char) :=
  match tryGroupDesc ((cs.takeWhile (fun c => !(isQuoteChar c))).length) cs with
  | some (cap, rest) => some (MatchKind.fromImport, cap, rest)
  | none =>
    match tryQuoteCapture cs with
    | some (cap, rest) => some (MatchKind.bareImport, cap, rest)
    | none => none

/-- Backtracking loop for the outer `\s+`: `k` characters consumed, from the
greedy maximum down to `1`. -/
def tryWsDesc : Nat → List Char → Option (MatchKind × List Char × List Char)
  | 0, _ => none
  | k + 1, cs =>
    match tryAfterWs (cs.drop (k + 1)) with
    | some r => some r
    | none => tryWsDesc k cs

/-- First alternative of `IMPORT_RE` at the current position. -/
def tryAlt1 (cs : List Char) : Option (MatchKind × List Char × List Char) :=
  if litImport.isPrefixOf cs then
    let cs1 := cs.drop 6
    tryWsDesc ((cs1.takeWhile isSpaceChar).length) cs1
  else none

/-- Second alternative of `IMPORT_RE` at the current position:
`require\(["']([^"']+)["']\)`. -/
def tryAlt2 (cs : List Char) : Option (MatchKind × List Char × List Char) :=
  if litRequire.isPrefixOf cs then
    match tryQuoteCapture (cs.drop 8) with
    | some (cap, rest) =>
      match rest with
      | c :: rest2 => if c = ')' then some (MatchKind.requireCall, cap, rest2) else none
      | [] => none
    | none => none
  else none

/-- Both alternatives, in the order of the pattern. -/
def tryMatchAt (cs : List Char) : Option (MatchKind × List Char × List Char) :=
  match tryAlt1 cs with
  | some r => some r
  | none => tryAlt2 cs

/-- `matchAll` driver: scan start positions left to right, resume after the
end of each match.  Every match consumes at least one character, so the
length of the input is sufficient fuel. -/
def scanGo : Nat → List Char → List (MatchKind × String)
  | 0, _ => []
  | fuel + 1, cs =>
    match cs with
    | [] => []
    | c :: rest =>
      match tryMatchAt (c :: rest) with
      | some (k, cap, remaining) => (k, String.mk cap) :: scanGo fuel remaining
      | none => scanGo fuel rest

/-- All `IMPORT_RE` matches of a file's content, with the alternative that
produced each capture. -/
def scanTagged (content : String) : List (MatchKind × String) :=
  scanGo content.toList.length content.toList

/-- The captured specifiers, in source order (`m[1] || m[2]`). -/
def scanImports (content : String) : List String :=
  (scanTagged content).map (fun m => m.2)

/-! ## Specifier resolver (`resolveRelativeToKnownFile`) -/

/-- The set of slash-normalized `relPath`s of the snapshot. -/
def knownRelPaths (files : List ScannedFile) : List String :=
  files.map (fun f => normalize f.relPath)

/-- The fixed ordered candidate list: the joined path verbatim, with each
script extension appended, and as a directory with each `index.*` appended. -/
def candidateList (fromRel raw : String) : List String :=
  let fromDir := pathDirname fromRel
  let base := normalize (pathJoin fromDir raw)
  [base,
   base ++ ".ts", base ++ ".tsx", base ++ ".js", base ++ ".jsx",
   normalize (pathJoin base "index.ts"),
   normalize (pathJoin base "index.tsx"),
   normalize (pathJoin base "index.js"),
   normalize (pathJoin base "index.jsx")]

/-- `resolveRelativeToKnownFile`: the first candidate present among the known
relPaths, if any. -/
def resolveRelativeToKnownFile (fromRel raw : String) (files : List ScannedFile) :
    Option String :=
  (candidateList fromRel raw).find? (fun c => decide (c ∈ knownRelPaths files))

/-! ## Line locator (`findImportLine`) -/

/-- The regex replacement `/\.(tsx?|jsx?)$/i` → `""`. -/
def stripKnownExt (s : String) : String :=
  let lower := String.mk (s.toList.map Char.toLower)
  if strEndsWith ".tsx" lower || strEndsWith ".jsx" lower then
    String.mk (s.toList.take (s.toList.length - 4))
  else if strEndsWith ".ts" lower || strEndsWith ".js" lower then
    String.mk (s.toList.take (s.toList.length - 3))
  else s

/-- Match `["']spec["']` at the head; return the rest of the input. -/
def quoteSpecQuote (spec cs : List Char) : Option (List Char) :=
  match cs with
  | [] => none
  | c :: rest =>
    if isQuoteChar c && spec.isPrefixOf rest then
      match rest.drop spec.length with
      | d :: rest2 => if isQuoteChar d then some rest2 else none
      | [] => none
    else none

/-- Match `from\s+['"]spec['"]` at the head of `cs`. -/
def fromSpecAt (spec cs : List Char) : Bool :=
  if litFrom.isPrefixOf cs then
    let cs1 := cs.drop 4
    if (cs1.takeWhile isSpaceChar).isEmpty then false
    else (quoteSpecQuote spec (cs1.dropWhile isSpaceChar)).isSome
  else false

/-- Match `require\(\s*['"]spec['"]\s*\)` at the head of `cs`. -/
def requireSpecAt (spec cs : List Char) : Bool :=
  if litRequire.isPrefixOf cs then
    match quoteSpecQuote spec ((cs.drop 8).dropWhile isSpaceChar) with
    | some rest =>
      match rest.dropWhile isSpaceChar with
      | ')' :: _ => true
      | _ => false
    | none => false
  else false

/-- Search every position of a line; the pattern's first character must sit at
a word boundary (`\b` before `from` / `require`): the preceding character, if
any, is not a word character. -/
def existsPosB (p : List Char → Bool) : Option Char → List Char → Bool
  | _, [] => false
  | prev, c :: rest =>
    ((match prev with
      | none => true
      | some d => !(isWordChar d)) && p (c :: rest))
    || existsPosB p (some c) rest

def lineHasFromSpec (spec l : String) : Bool :=
  existsPosB (fromSpecAt spec.toList) none l.toList

def lineHasRequireSpec (spec l : String) : Bool :=
  existsPosB (requireSpecAt spec.toList) none l.toList

/-- The two specifiers recomputed by `findImportLine`: the relative path from
the importing file's directory to the target, `./`-prefixed when needed, in
extensionless form first and verbatim second. -/
def recomputedSpecs (fromRel toRel : String) : List String :=
  let fromDir := normalize (pathDirname fromRel)
  let toNorm := normalize toRel
  let rel := normalize (pathRelative fromDir toNorm)
  let relWithDot := if strStartsWith "." rel then rel else "./" ++ rel
  [stripKnownExt relWithDot, relWithDot]

/-- One line of the scan: either recomputed specifier, in either the
`from`-shaped or the `require`-shaped occurrence. -/
def lineHit (fromRel toRel l : String) : Bool :=
  (recomputedSpecs fromRel toRel).any
    (fun spec => lineHasFromSpec spec l || lineHasRequireSpec spec l)

def findImportLineGo (fromRel toRel : String) : Nat → List String → Option Nat
  | _, [] => none
  | i, l :: rest =>
    if lineHit fromRel toRel l then some i
    else findImportLineGo fromRel toRel (i + 1) rest

/-- `findImportLine`: the 0-based index of the first line matching either
recomputed specifier, or `none` (the source's `-1`). -/
def findImportLine (fromRel toRel : String) (lines : List String) : Option Nat :=
  findImportLineGo fromRel toRel 0 lines

/-! ## Issue synthesis -/

/-- `absPathForRel`: the absolute path of the file whose normalized `relPath`
matches, defaulting to the relative path itself. -/
def absPathForRel (rel : String) (files : List ScannedFile) : String :=
  match files.find? (fun f => decide (normalize f.relPath = normalize rel)) with
  | some f => f.path
  | none => rel

/-- The issue pushed for one recorded cycle (identical in both
implementations of the rule). -/
def mkIssue (files : List ScannedFile) (cycle : List String) : Issue :=
  let startRel := cycle.headD ""
  let startFile? := files.find? (fun f => decide (normalize f.relPath = normalize startRel))
  let line : Option Nat :=
    match startFile?, (cycle.drop 1).head? with
    | some sf, some nextRel => (findImportLine startRel nextRel sf.lines).map (fun i => i + 1)
    | _, _ => none
  { id := "cycle:" ++ joinSep "->" cycle
    severity := Severity.ERROR
    message := "Circular dependency: " ++ joinSep " → " cycle
    filePath := absPathForRel startRel files
    line := line
    ruleId := "circular-deps" }

/-! ## Graph builder -/

/-- Adjacency structure: insertion-ordered association list, as a JavaScript
`Map` of arrays (primary implementation) or object of key sets (alternate). -/
abbrev Graph := List (String × List String)

/-- JavaScript `Map.prototype.set`: replace in place, else append. -/
def mapSet (g : Graph) (k : String) (v : List String) : Graph :=
  match g with
  | [] => [(k, v)]
  | e :: rest => if e.1 = k then (k, v) :: rest else e :: mapSet rest k v

/-- `graph.get(node) || []`. -/
def getDeps (g : Graph) (node : String) : List String :=
  match g.find? (fun e => decide (e.1 = node)) with
  | some e => e.2
  | none => []

def graphKeys (g : Graph) : List String := g.map (fun e => e.1)

/-- The dependency array collected for one file: every captured specifier
that is non-empty, starts with a dot, and resolves to a known file. -/
def depsOfFile (f : ScannedFile) (files : List ScannedFile) : List String :=
  (scanImports f.content).filterMap (fun raw =>
    if raw = "" then none
    else if strStartsWith "." raw then resolveRelativeToKnownFile f.relPath raw files
    else none)

/-- The import graph of a snapshot. -/
def buildGraph (files : List ScannedFile) : Graph :=
  files.foldl (fun g f => mapSet g (normalize f.relPath) (depsOfFile f files)) []

/-! ## Cycle detector: the DFS of the primary implementation

Mutable state of the traversal (`visited`, `stack`, `issues`) threaded
explicitly.  The raw node-sequence of each recorded cycle is accumulated; the
issue objects are synthesized from those sequences by `mkIssue`, exactly as
the in-place `issues.push` does.  The fuel argument bounds the recursion
depth; adequacy of the chosen fuel is proved below. -/

structure DfsState where
  visited : List String
  stack : List String
  cycles : List (List String)
deriving DecidableEq, Repr

def dfs (g : Graph) : Nat → String → List String → DfsState → Option DfsState
  | 0, _, _, _ => none
  | fuel + 1, node, pathStack, st =>
    if node ∈ st.stack then
      some { st with cycles := st.cycles ++ [pathStack ++ [node]] }
    else if node ∈ st.visited then
      some st
    else
      let st1 : DfsState :=
        { st with visited := st.visited ++ [node], stack := st.stack ++ [node] }
      match (getDeps g node).foldl
          (fun acc n => acc.bind (fun s => dfs g fuel n (pathStack ++ [node]) s))
          (some st1) with
      | some st2 => some { st2 with stack := st2.stack.erase node }
      | none => none

/-- The `for (const n of neighbors) dfs(n, …)` loop, threading the traversal
state; also the `for (const node of graph.keys()) dfs(node, [])` top loop. -/
def dfsList (g : Graph) (fuel : Nat) (ns : List String) (pathStack : List String)
    (st : DfsState) : Option DfsState :=
  ns.foldl (fun acc n => acc.bind (fun s => dfs g fuel n pathStack s)) (some st)

/-- Every node name that occurs in the graph, keys and edge targets. -/
def nodesOf (g : Graph) : List String :=
  graphKeys g ++ (g.map (fun e => e.2)).flatten

/-- Fuel that is proved sufficient for the traversal. -/
def dfsFuel (g : Graph) : Nat := (nodesOf g).length + 1

/-- The whole traversal of `circularDepsRule.run`: one DFS start per graph
key, with shared `visited` and an initially empty path. -/
def runDfs (files : List ScannedFile) : Option DfsState :=
  let g := buildGraph files
  dfsList g (dfsFuel g) (graphKeys g) [] ⟨[], [], []⟩

/-- The node sequences of the recorded cycles, in discovery order. -/
def runCycles (files : List ScannedFile) : Option (List (List String)) :=
  (runDfs files).map (fun st => st.cycles)

/-- `circularDepsRule.run` (primary, DFS implementation). -/
def circularDepsRun (files : List ScannedFile) : Option (List Issue) :=
  (runDfs files).map (fun st => st.cycles.map (mkIssue files))

/-! ## The alternate transitive-closure implementation of the rule -/

namespace TC

/-- Object-spread key union `{...a, ...b}`: keys of `a` keep their position,
new keys of `b` are appended in order. -/
def mergeKeys (a b : List String) : List String :=
  a ++ b.filter (fun k => decide (k ∉ a))

/-- Object-key dedup: `deps[resolved] = true` keeps the first insertion
position of each key. -/
def dedupFirstAux : List String → List String → List String
  | [], _ => []
  | x :: xs, seen =>
    if x ∈ seen then dedupFirstAux xs seen else x :: dedupFirstAux xs (seen ++ [x])

def dedupFirst (l : List String) : List String := dedupFirstAux l []

/-- The graph of the alternate implementation: same extraction and
resolution, dependency sets as object keys. -/
def buildGraph (files : List ScannedFile) : Graph :=
  files.foldl
    (fun g f => mapSet g (normalize f.relPath) (dedupFirst (depsOfFile f files))) []

/-- One sweep of the fixed-point expansion: for each dependant in key order,
merge the rows of its current dependencies into its row; record whether any
row grew. -/
def sweep (g0 : Graph) : Graph × Bool :=
  (graphKeys g0).foldl
    (fun acc dep =>
      let row := getDeps acc.1 dep
      let newRow := row.foldl (fun r d => mergeKeys r (getDeps acc.1 d)) row
      if newRow.length ≠ row.length then (mapSet acc.1 dep newRow, true)
      else acc)
    (g0, false)

/-- `while (hasChanges) { … }`: sweep until a sweep changes nothing. -/
def closure (fuel : Nat) (g : Graph) : Option Graph :=
  match fuel with
  | 0 => none
  | fuel' + 1 =>
    let s := sweep g
    if s.2 then closure fuel' s.1 else some s.1

def getIssues (g : Graph) (files : List ScannedFile) :
    Nat → String → List String → List String → Option (List Issue)
  | 0, _, _, _ => none
  | fuel + 1, dependency, path, visited =>
    if path.head? = some dependency then
      some [mkIssue files (path ++ [dependency])]
    else if dependency ∈ visited then
      some []
    else
      (getDeps g dependency).foldl
        (fun acc d => acc.bind (fun accIssues =>
          (getIssues g files fuel d (path ++ [dependency]) (visited ++ [dependency])).map
            (fun childIssues => accIssues ++ childIssues)))
        (some [])

/-- The final loop: one path enumeration per dependant whose closed row
contains itself. -/
def collect (g gAll : Graph) (files : List ScannedFile) (fuel : Nat) :
    List String → Option (List Issue)
  | [] => some []
  | dep :: rest =>
    if dep ∈ getDeps gAll dep then
      match getIssues g files fuel dep [] [] with
      | some is1 =>
        match collect g gAll files fuel rest with
        | some is2 => some (is1 ++ is2)
        | none => none
      | none => none
    else collect g gAll files fuel rest

/-- `circularDepsRule.run` (alternate, transitive-closure implementation). -/
def run (files : List ScannedFile) : Option (List Issue) :=
  let g := buildGraph files
  match closure (g.length * g.length + 2) g with
  | some gAll => collect g gAll files (g.length + 2) (graphKeys gAll)
  | none => none

end TC

/-! ## Semantic notions used by the statements -/

/-- The edge relation of a graph: `b` is among the recorded dependencies of
`a`. -/
def EdgeRel (g : Graph) (a b : String) : Prop := b ∈ getDeps g a

/-- A graph is acyclic when no node reaches itself through one or more
edges. -/
def Acyclic (g : Graph) : Prop := ∀ n, ¬ Relation.TransGen (EdgeRel g) n n

/-- Shape of every recorded cycle: the whole active path with the on-stack
neighbor appended; consecutive entries are edges and the final entry occurs
somewhere in the path. -/
def CycShape (g : Graph) (c : List String) : Prop :=
  ∃ p n, c = p ++ [n] ∧ n ∈ p ∧ List.Chain' (EdgeRel g) (p ++ [n])

/-- Number of graph-relevant nodes not yet visited; the termination measure
of the traversal. -/
def unvisited (g : Graph) (visited : List String) : Nat :=
  ((nodesOf g).filter (fun x => decide (x ∉ visited))).length

/-! ## Basic traversal equations -/

theorem dfsList_nil (g : Graph) (fuel : Nat) (p : List String) (st : DfsState) :
    dfsList g fuel [] p st = some st := rfl

theorem dfs_zero (g : Graph) (node : String) (p : List String) (st : DfsState) :
    dfs g 0 node p st = none := rfl

theorem dfs_succ (g : Graph) (fuel : Nat) (node : String) (p : List String)
    (st : DfsState) :
    dfs g (fuel + 1) node p st =
      if node ∈ st.stack then
        some { st with cycles := st.cycles ++ [p ++ [node]] }
      else if node ∈ st.visited then
        some st
      else
        match dfsList g fuel (getDeps g node) (p ++ [node])
            { st with visited := st.visited ++ [node], stack := st.stack ++ [node] } with
        | some st2 => some { st2 with stack := st2.stack.erase node }
        | none => none := rfl

theorem dfsFoldl_none (g : Graph) (fuel : Nat) (p : List String) (ns : List String) :
    ns.foldl (fun acc n => acc.bind (fun s => dfs g fuel n p s)) none = none := by
  induction ns with
  | nil => rfl
  | cons n rest ih => simpa using ih

theorem dfsList_cons (g : Graph) (fuel : Nat) (n : String) (rest : List String)
    (p : List String) (st : DfsState) :
    dfsList g fuel (n :: rest) p st =
      (dfs g fuel n p st).bind (fun s => dfsList g fuel rest p s) := by
  show List.foldl _ ((some st).bind fun s => dfs g fuel n p s) rest = _
  cases h : dfs g fuel n p st with
  | none => simp [h, dfsFoldl_none]
  | some st1 => simp [h, dfsList]

theorem getDeps_cons_self (k : String) (v : List String) (g : Graph) :
    getDeps ((k, v) :: g) k = v := by
  simp [getDeps, List.find?]

theorem getDeps_cons_ne (k node : String) (v : List String) (g : Graph)
    (h : k ≠ node) : getDeps ((k, v) :: g) node = getDeps g node := by
  simp [getDeps, List.find?, h]

theorem getDeps_sub_nodesOf (g : Graph) (node : String) :
    ∀ d ∈ getDeps g node, d ∈ nodesOf g := by
  intro d hd
  unfold getDeps at hd
  cases hf : g.find? (fun e => decide (e.1 = node)) with
  | none => rw [hf] at hd; cases hd
  | some e =>
    rw [hf] at hd
    have he : e ∈ g := List.mem_of_find?_eq_some hf
    have : e.2 ∈ g.map (fun e => e.2) := List.mem_map_of_mem _ he
    exact List.mem_append_right _ (List.mem_flatten.mpr ⟨e.2, this, hd⟩)

/-! ## Traversal invariants -/

/-- Both traversal functions restore the stack: every `stack.add` is undone
by the matching `stack.delete`. -/
theorem dfs_dfsList_stack :
    ∀ fuel : Nat,
      (∀ g node p st st', dfs g fuel node p st = some st' → st'.stack = st.stack) ∧
      (∀ g ns p st st', dfsList g fuel ns p st = some st' → st'.stack = st.stack) := by
  intro fuel
  induction fuel with
  | zero =>
    constructor
    · intro g node p st st' h
      rw [dfs_zero] at h; cases h
    · intro g ns p st st' h
      cases ns with
      | nil => rw [dfsList_nil] at h; cases h; rfl
      | cons n rest =>
        rw [dfsList_cons, dfs_zero] at h; cases h
  | succ fuel ih =>
    have hdfs : ∀ g node p st st',
        dfs g (fuel + 1) node p st = some st' → st'.stack = st.stack := by
      intro g node p st st' h
      rw [dfs_succ] at h
      by_cases h1 : node ∈ st.stack
      · rw [if_pos h1] at h; cases h; rfl
      · rw [if_neg h1] at h
        by_cases h2 : node ∈ st.visited
        · rw [if_pos h2] at h; cases h; rfl
        · rw [if_neg h2] at h
          cases hd : dfsList g fuel (getDeps g node) (p ++ [node])
              { st with visited := st.visited ++ [node], stack := st.stack ++ [node] } with
          | none => rw [hd] at h; cases h
          | some st2 =>
            rw [hd] at h
            cases h
            have hst2 := ih.2 g _ _ _ _ hd
            simp only [hst2]
            rw [List.erase_append_right _ h1, List.erase_cons_head, List.append_nil]
    refine ⟨hdfs, ?_⟩
    intro g ns p st st' h
    induction ns generalizing st with
    | nil => rw [dfsList_nil] at h; cases h; rfl
    | cons n rest ihn =>
      rw [dfsList_cons] at h
      cases hd : dfs g (fuel + 1) n p st with
      | none => rw [hd] at h; cases h
      | some st1 =>
        rw [hd] at h
        exact (ihn st1 h).trans (hdfs g n p st st1 hd)

theorem dfs_stack (g : Graph) (fuel : Nat) (node : String) (p : List String)
    (st st' : DfsState) (h : dfs g fuel node p st = some st') :
    st'.stack = st.stack :=
  (dfs_dfsList_stack fuel).1 g node p st st' h

theorem dfsList_stack (g : Graph) (fuel : Nat) (ns : List String) (p : List String)
    (st st' : DfsState) (h : dfsList g fuel ns p st = some st') :
    st'.stack = st.stack :=
  (dfs_dfsList_stack fuel).2 g ns p st st' h

/-- The visited set only grows. -/
theorem dfs_dfsList_visited :
    ∀ fuel : Nat,
      (∀ g node p st st', dfs g fuel node p st = some st' →
        ∀ x, x ∈ st.visited → x ∈ st'.visited) ∧
      (∀ g ns p st st', dfsList g fuel ns p st = some st' →
        ∀ x, x ∈ st.visited → x ∈ st'.visited) := by
  intro fuel
  induction fuel with
  | zero =>
    constructor
    · intro g node p st st' h
      rw [dfs_zero] at h; cases h
    · intro g ns p st st' h
      cases ns with
      | nil => rw [dfsList_nil] at h; cases h; exact fun x hx => hx
      | cons n rest =>
        rw [dfsList_cons, dfs_zero] at h; cases h
  | succ fuel ih =>
    have hdfs : ∀ g node p st st',
        dfs g (fuel + 1) node p st = some st' →
          ∀ x, x ∈ st.visited → x ∈ st'.visited := by
      intro g node p st st' h
      rw [dfs_succ] at h
      by_cases h1 : node ∈ st.stack
      · rw [if_pos h1] at h; cases h; exact fun x hx => hx
      · rw [if_neg h1] at h
        by_cases h2 : node ∈ st.visited
        · rw [if_pos h2] at h; cases h; exact fun x hx => hx
        · rw [if_neg h2] at h
          cases hd : dfsList g fuel (getDeps g node) (p ++ [node])
              { st with visited := st.visited ++ [node], stack := st.stack ++ [node] } with
          | none => rw [hd] at h; cases h
          | some st2 =>
            rw [hd] at h
            cases h
            intro x hx
            exact ih.2 g _ _ _ _ hd x (List.mem_append_left _ hx)
    refine ⟨hdfs, ?_⟩
    intro g ns p st st' h
    induction ns generalizing st with
    | nil => rw [dfsList_nil] at h; cases h; exact fun x hx => hx
    | cons n rest ihn =>
      rw [dfsList_cons] at h
      cases hd : dfs g (fuel + 1) n p st with
      | none => rw [hd] at h; cases h
      | some st1 =>
        rw [hd] at h
        exact fun x hx => ihn st1 h x (hdfs g n p st st1 hd x hx)

theorem chain'_snoc_of_rel {R : String → String → Prop} {l : List String}
    {a b : String} (hc : List.Chain' R (l ++ [a])) (hr : R a b) :
    List.Chain' R ((l ++ [a]) ++ [b]) := by
  rw [List.chain'_append]
  refine ⟨hc, List.chain'_singleton b, ?_⟩
  intro x hx y hy
  rw [List.getLast?_concat] at hx
  cases hx
  cases hy
  exact hr

/-- Every cycle recorded by the traversal is the active path with the
on-stack neighbor appended: consecutive entries are edges, and the final
entry already occurs in the path. -/
theorem dfs_dfsList_cycles :
    ∀ fuel : Nat,
      (∀ g node p st st', st.stack = p →
        List.Chain' (EdgeRel g) (p ++ [node]) →
        dfs g fuel node p st = some st' →
        ∀ c ∈ st'.cycles, c ∈ st.cycles ∨ CycShape g c) ∧
      (∀ g ns p st st', st.stack = p →
        (∀ n ∈ ns, List.Chain' (EdgeRel g) (p ++ [n])) →
        dfsList g fuel ns p st = some st' →
        ∀ c ∈ st'.cycles, c ∈ st.cycles ∨ CycShape g c) := by
  intro fuel
  induction fuel with
  | zero =>
    constructor
    · intro g node p st st' _ _ h
      rw [dfs_zero] at h; cases h
    · intro g ns p st st' _ _ h
      cases ns with
      | nil => rw [dfsList_nil] at h; cases h; exact fun c hc => Or.inl hc
      | cons n rest =>
        rw [dfsList_cons, dfs_zero] at h; cases h
  | succ fuel ih =>
    have hdfs : ∀ g node p st st', st.stack = p →
        List.Chain' (EdgeRel g) (p ++ [node]) →
        dfs g (fuel + 1) node p st = some st' →
        ∀ c ∈ st'.cycles, c ∈ st.cycles ∨ CycShape g c := by
      intro g node p st st' hstk hchain h
      rw [dfs_succ] at h
      by_cases h1 : node ∈ st.stack
      · rw [if_pos h1] at h
        cases h
        intro c hc
        rcases List.mem_append.mp hc with hc | hc
        · exact Or.inl hc
        · rcases List.mem_singleton.mp hc with rfl
          exact Or.inr ⟨p, node, rfl, hstk ▸ h1, hchain⟩
      · rw [if_neg h1] at h
        by_cases h2 : node ∈ st.visited
        · rw [if_pos h2] at h; cases h; exact fun c hc => Or.inl hc
        · rw [if_neg h2] at h
          cases hd : dfsList g fuel (getDeps g node) (p ++ [node])
              { st with visited := st.visited ++ [node], stack := st.stack ++ [node] } with
          | none => rw [hd] at h; cases h
          | some st2 =>
            rw [hd] at h
            cases h
            intro c hc
            have hch1 : ∀ n ∈ getDeps g node,
                List.Chain' (EdgeRel g) ((p ++ [node]) ++ [n]) := by
              intro n hn
              exact chain'_snoc_of_rel hchain hn
            exact ih.2 g _ _ _ _ (by simp [hstk]) hch1 hd c hc
    refine ⟨hdfs, ?_⟩
    intro g ns p st st' hstk hchain h
    induction ns generalizing st with
    | nil => rw [dfsList_nil] at h; cases h; exact fun c hc => Or.inl hc
    | cons n rest ihn =>
      rw [dfsList_cons] at h
      cases hd : dfs g (fuel + 1) n p st with
      | none => rw [hd] at h; cases h
      | some st1 =>
        rw [hd] at h
        intro c hc
        have hstk1 : st1.stack = p := (dfs_stack g _ n p st st1 hd).trans hstk
        rcases ihn st1 hstk1 (fun m hm => hchain m (List.mem_cons_of_mem _ hm)) h c hc with
          hc1 | hc1
        · exact hdfs g n p st st1 hstk (hchain n (List.mem_cons_self n rest)) hd c hc1
        · exact Or.inr hc1

theorem filter_length_mono {l : List String} {p q : String → Bool}
    (h : ∀ x, p x = true → q x = true) :
    (l.filter p).length ≤ (l.filter q).length := by
  induction l with
  | nil => simp
  | cons a t ih =>
    rw [List.filter_cons, List.filter_cons]
    by_cases hp : p a = true
    · rw [if_pos hp, if_pos (h a hp)]
      simpa using ih
    · rw [if_neg hp]
      by_cases hq : q a = true
      · rw [if_pos hq]
        exact ih.trans (by simp)
      · rw [if_neg hq]
        exact ih

theorem filter_length_lt {l : List String} {p q : String → Bool} {x0 : String}
    (h : ∀ x, p x = true → q x = true) (hx : x0 ∈ l)
    (hq : q x0 = true) (hp : p x0 = false) :
    (l.filter p).length < (l.filter q).length := by
  induction l with
  | nil => cases hx
  | cons a t ih =>
    rw [List.filter_cons, List.filter_cons]
    by_cases hax : a = x0
    · subst hax
      rw [if_pos hq, if_neg (by simp [hp])]
      exact Nat.lt_succ_of_le (filter_length_mono h)
    · have hx' : x0 ∈ t := by
        rcases List.mem_cons.mp hx with h' | h'
        · exact absurd h'.symm hax
        · exact h'
      by_cases hpa : p a = true
      · rw [if_pos hpa, if_pos (h a hpa)]
        simpa using ih hx'
      · rw [if_neg hpa]
        by_cases hqa : q a = true
        · rw [if_pos hqa]
          exact Nat.lt_succ_of_lt (ih hx')
        · rw [if_neg hqa]
          exact ih hx'

theorem unvisited_mono (g : Graph) {v v' : List String}
    (h : ∀ x, x ∈ v → x ∈ v') : unvisited g v' ≤ unvisited g v := by
  apply filter_length_mono
  intro x hx
  simp only [decide_eq_true_eq] at hx ⊢
  exact fun hv => hx (h x hv)

theorem unvisited_append_lt (g : Graph) {v : List String} {node : String}
    (hn : node ∈ nodesOf g) (hv : node ∉ v) :
    unvisited g (v ++ [node]) < unvisited g v := by
  refine filter_length_lt ?_ hn (by simpa using hv) (by simp)
  intro x hx
  simp only [decide_eq_true_eq] at hx ⊢
  intro hmem
  exact hx (List.mem_append_left _ hmem)

/-- Fuel adequacy: with more fuel than unvisited graph nodes, the traversal
never runs out. -/
theorem dfs_dfsList_total :
    ∀ fuel : Nat,
      (∀ g node p st, node ∈ nodesOf g → unvisited g st.visited < fuel →
        (dfs g fuel node p st).isSome = true) ∧
      (∀ g ns p st, (∀ n ∈ ns, n ∈ nodesOf g) → unvisited g st.visited < fuel →
        (dfsList g fuel ns p st).isSome = true) := by
  intro fuel
  induction fuel with
  | zero =>
    constructor
    · intro g node p st _ hlt
      exact absurd hlt (Nat.not_lt_zero _)
    · intro g ns p st _ hlt
      exact absurd hlt (Nat.not_lt_zero _)
  | succ fuel ih =>
    have hdfs : ∀ g node p st, node ∈ nodesOf g →
        unvisited g st.visited < fuel + 1 →
        (dfs g (fuel + 1) node p st).isSome = true := by
      intro g node p st hn hlt
      rw [dfs_succ]
      by_cases h1 : node ∈ st.stack
      · rw [if_pos h1]; rfl
      · rw [if_neg h1]
        by_cases h2 : node ∈ st.visited
        · rw [if_pos h2]; rfl
        · rw [if_neg h2]
          have hlt1 : unvisited g (st.visited ++ [node]) < fuel := by
            have := unvisited_append_lt g hn h2
            omega
          have hsome := ih.2 g (getDeps g node) (p ++ [node])
              { st with visited := st.visited ++ [node], stack := st.stack ++ [node] }
              (getDeps_sub_nodesOf g node) hlt1
          cases hd : dfsList g fuel (getDeps g node) (p ++ [node])
              { st with visited := st.visited ++ [node], stack := st.stack ++ [node] } with
          | none => rw [hd] at hsome; simp at hsome
          | some st2 => rfl
    refine ⟨hdfs, ?_⟩
    intro g ns p st hns hlt
    induction ns generalizing st with
    | nil => rw [dfsList_nil]; rfl
    | cons n rest ihn =>
      rw [dfsList_cons]
      have h1 := hdfs g n p st (hns n (List.mem_cons_self n rest)) hlt
      cases hd : dfs g (fuel + 1) n p st with
      | none => rw [hd] at h1; simp at h1
      | some st1 =>
        show (dfsList g (fuel + 1) rest p st1).isSome = true
        have hmon := unvisited_mono g ((dfs_dfsList_visited (fuel + 1)).1 g n p st st1 hd)
        exact ihn st1 (fun m hm => hns m (List.mem_cons_of_mem _ hm)) (by omega)

/-! ## Top-level consequences of the invariants -/

theorem runDfs_isSome (files : List ScannedFile) : ∃ st, runDfs files = some st := by
  unfold runDfs
  have hkeys : ∀ n ∈ graphKeys (buildGraph files), n ∈ nodesOf (buildGraph files) := by
    intro n hn
    exact List.mem_append_left _ hn
  have hlt : unvisited (buildGraph files) (DfsState.mk [] [] []).visited
      < dfsFuel (buildGraph files) := by
    show unvisited (buildGraph files) [] < dfsFuel (buildGraph files)
    have h1 : unvisited (buildGraph files) [] ≤ (nodesOf (buildGraph files)).length :=
      List.length_filter_le _ _
    unfold dfsFuel
    omega
  have h := (dfs_dfsList_total (dfsFuel (buildGraph files))).2 (buildGraph files)
    (graphKeys (buildGraph files)) [] ⟨[], [], []⟩ hkeys hlt
  cases hd : dfsList (buildGraph files) (dfsFuel (buildGraph files))
      (graphKeys (buildGraph files)) [] ⟨[], [], []⟩ with
  | none => rw [hd] at h; simp at h
  | some st => exact ⟨st, rfl⟩

theorem circularDepsRun_eq (files : List ScannedFile) (st : DfsState)
    (h : runDfs files = some st) :
    circularDepsRun files = some (st.cycles.map (mkIssue files)) := by
  unfold circularDepsRun
  rw [h]
  rfl

theorem runCycles_eq (files : List ScannedFile) (st : DfsState)
    (h : runDfs files = some st) : runCycles files = some st.cycles := by
  unfold runCycles
  rw [h]
  rfl

/-- Every recorded cycle of a full run has the path-plus-neighbor shape. -/
theorem runDfs_cycles_shape (files : List ScannedFile) (st : DfsState)
    (h : runDfs files = some st) :
    ∀ c ∈ st.cycles, CycShape (buildGraph files) c := by
  intro c hc
  have hchain : ∀ n ∈ graphKeys (buildGraph files),
      List.Chain' (EdgeRel (buildGraph files)) ([] ++ [n]) := by
    intro n _
    simp
  have := (dfs_dfsList_cycles (dfsFuel (buildGraph files))).2 (buildGraph files)
    (graphKeys (buildGraph files)) [] ⟨[], [], []⟩ st rfl hchain h c hc
  rcases this with h' | h'
  · simp at h'
  · exact h'

theorem chain_transGen {R : String → String → Prop} :
    ∀ (l : List String) (a b : String),
      List.Chain R a (l ++ [b]) → Relation.TransGen R a b := by
  intro l
  induction l with
  | nil =>
    intro a b h
    rw [List.nil_append, List.chain_cons] at h
    exact Relation.TransGen.single h.1
  | cons x t ih =>
    intro a b h
    rw [List.cons_append, List.chain_cons] at h
    exact Relation.TransGen.head h.1 (ih x b h.2)

theorem cycShape_transGen {g : Graph} {c : List String} (h : CycShape g c) :
    ∃ n, Relation.TransGen (EdgeRel g) n n := by
  rcases h with ⟨p, n, rfl, hmem, hchain⟩
  rcases List.append_of_mem hmem with ⟨p1, p2, rfl⟩
  refine ⟨n, ?_⟩
  have heq : (p1 ++ n :: p2) ++ [n] = p1 ++ (n :: (p2 ++ [n])) := by simp
  rw [heq] at hchain
  have hsuf : List.Chain (EdgeRel g) n (p2 ++ [n]) :=
    (List.chain'_append.mp hchain).2.1
  exact chain_transGen p2 n n hsuf

/-! ## Graph builder lemmas -/

theorem mem_graphKeys_mapSet (g : Graph) (k0 k : String) (v : List String) :
    k ∈ graphKeys (mapSet g k0 v) ↔ k ∈ graphKeys g ∨ k = k0 := by
  induction g with
  | nil => simp [mapSet, graphKeys, eq_comm]
  | cons e rest ih =>
    by_cases he : e.1 = k0
    · rw [show mapSet (e :: rest) k0 v = (k0, v) :: rest from by simp [mapSet, he]]
      simp only [graphKeys, List.map_cons, List.mem_cons]
      constructor
      · rintro (h | h)
        · exact Or.inr h
        · exact Or.inl (Or.inr h)
      · rintro (h | h)
        · rcases h with h | h
          · exact Or.inl (h.trans he)
          · exact Or.inr h
        · exact Or.inl h
    · rw [show mapSet (e :: rest) k0 v = e :: mapSet rest k0 v from by simp [mapSet, he]]
      simp only [graphKeys, List.map_cons, List.mem_cons] at ih ⊢
      rw [ih]
      tauto

theorem nodup_graphKeys_mapSet (g : Graph) (k0 : String) (v : List String)
    (h : (graphKeys g).Nodup) : (graphKeys (mapSet g k0 v)).Nodup := by
  induction g with
  | nil => simp [mapSet, graphKeys]
  | cons e rest ih =>
    by_cases he : e.1 = k0
    · rw [show mapSet (e :: rest) k0 v = (k0, v) :: rest from by simp [mapSet, he]]
      simp only [graphKeys, List.map_cons, List.nodup_cons] at h ⊢
      exact ⟨he ▸ h.1, h.2⟩
    · rw [show mapSet (e :: rest) k0 v = e :: mapSet rest k0 v from by simp [mapSet, he]]
      simp only [graphKeys, List.map_cons, List.nodup_cons] at h ⊢
      refine ⟨?_, ih h.2⟩
      intro hmem
      rcases (mem_graphKeys_mapSet rest k0 e.1 v).mp hmem with h' | h'
      · exact h.1 h'
      · exact he h'

theorem mem_mapSet (g : Graph) (k : String) (v : List String) :
    ∀ e ∈ mapSet g k v, e ∈ g ∨ e = (k, v) := by
  induction g with
  | nil =>
    intro e he
    simp [mapSet] at he
    exact Or.inr he
  | cons e0 rest ih =>
    intro e he
    by_cases h0 : e0.1 = k
    · rw [show mapSet (e0 :: rest) k v = (k, v) :: rest from by simp [mapSet, h0]] at he
      rcases List.mem_cons.mp he with h | h
      · exact Or.inr h
      · exact Or.inl (List.mem_cons_of_mem _ h)
    · rw [show mapSet (e0 :: rest) k v = e0 :: mapSet rest k v from by simp [mapSet, h0]] at he
      rcases List.mem_cons.mp he with h | h
      · exact Or.inl (h ▸ List.mem_cons_self e0 rest)
      · rcases ih e h with h' | h'
        · exact Or.inl (List.mem_cons_of_mem _ h')
        · exact Or.inr h'

/-- Keys of the built graph are exactly the normalized relPaths. -/
theorem mem_graphKeys_foldl (files : List ScannedFile) (all : List ScannedFile) :
    ∀ (g0 : Graph) (k : String),
      k ∈ graphKeys (files.foldl (fun g f => mapSet g (normalize f.relPath) (depsOfFile f all)) g0) ↔
        k ∈ graphKeys g0 ∨ ∃ f ∈ files, k = normalize f.relPath := by
  induction files with
  | nil => simp
  | cons f rest ih =>
    intro g0 k
    rw [List.foldl_cons, ih]
    rw [mem_graphKeys_mapSet]
    constructor
    · rintro (⟨h | h⟩ | h)
      · exact Or.inl h
      · exact Or.inr ⟨f, List.mem_cons_self f rest, h⟩
      · rcases h with ⟨f', hf', hk⟩
        exact Or.inr ⟨f', List.mem_cons_of_mem _ hf', hk⟩
    · rintro (h | ⟨f', hf', hk⟩)
      · exact Or.inl (Or.inl h)
      · rcases List.mem_cons.mp hf' with h' | h'
        · exact Or.inl (Or.inr (h' ▸ hk))
        · exact Or.inr ⟨f', h', hk⟩

theorem mem_graphKeys_buildGraph (files : List ScannedFile) (k : String) :
    k ∈ graphKeys (buildGraph files) ↔ k ∈ knownRelPaths files := by
  unfold buildGraph
  rw [mem_graphKeys_foldl files files [] k]
  simp [graphKeys, knownRelPaths, eq_comm]

theorem nodup_graphKeys_buildGraph (files : List ScannedFile) :
    (graphKeys (buildGraph files)).Nodup := by
  unfold buildGraph
  have : ∀ (fs : List ScannedFile) (g0 : Graph), (graphKeys g0).Nodup →
      (graphKeys (fs.foldl (fun g f => mapSet g (normalize f.relPath) (depsOfFile f files)) g0)).Nodup := by
    intro fs
    induction fs with
    | nil => intro g0 h; exact h
    | cons f rest ih =>
      intro g0 h
      rw [List.foldl_cons]
      exact ih _ (nodup_graphKeys_mapSet g0 _ _ h)
  exact this files [] (by simp [graphKeys])

theorem mem_buildGraph_entries (files : List ScannedFile) :
    ∀ e ∈ buildGraph files, ∃ f ∈ files, e = (normalize f.relPath, depsOfFile f files) := by
  unfold buildGraph
  have : ∀ (fs : List ScannedFile) (g0 : Graph),
      ∀ e ∈ fs.foldl (fun g f => mapSet g (normalize f.relPath) (depsOfFile f files)) g0,
        e ∈ g0 ∨ ∃ f ∈ fs, e = (normalize f.relPath, depsOfFile f files) := by
    intro fs
    induction fs with
    | nil => intro g0 e he; exact Or.inl he
    | cons f rest ih =>
      intro g0 e he
      rw [List.foldl_cons] at he
      rcases ih _ e he with h | h
      · rcases mem_mapSet g0 _ _ e h with h' | h'
        · exact Or.inl h'
        · exact Or.inr ⟨f, List.mem_cons_self f rest, h'⟩
      · rcases h with ⟨f', hf', he'⟩
        exact Or.inr ⟨f', List.mem_cons_of_mem _ hf', he'⟩
  intro e he
  rcases this files [] e he with h | h
  · cases h
  · exact h

/-! ## Resolver and extraction lemmas -/

theorem find?_eq_some_split {α : Type} (l : List α) (p : α → Bool) (r : α)
    (h : l.find? p = some r) :
    p r = true ∧ ∃ pre post, l = pre ++ r :: post ∧ ∀ a ∈ pre, p a = false := by
  induction l with
  | nil => cases h
  | cons a t ih =>
    cases hp : p a with
    | true =>
      rw [List.find?_cons_of_pos _ hp] at h
      cases h
      exact ⟨hp, [], t, rfl, by intro x hx; cases hx⟩
    | false =>
      rw [List.find?_cons_of_neg _ (by simp [hp])] at h
      rcases ih h with ⟨hr, pre, post, heq, hpre⟩
      refine ⟨hr, a :: pre, post, by rw [heq]; rfl, ?_⟩
      intro x hx
      rcases List.mem_cons.mp hx with h' | h'
      · exact h' ▸ hp
      · exact hpre x h'

theorem resolve_mem_known (fromRel raw : String) (files : List ScannedFile) (r : String)
    (h : resolveRelativeToKnownFile fromRel raw files = some r) :
    r ∈ knownRelPaths files := by
  unfold resolveRelativeToKnownFile at h
  have := (find?_eq_some_split _ _ _ h).1
  simpa using this

/-- Which extracted specifiers produce edges. -/
theorem mem_depsOfFile (f : ScannedFile) (files : List ScannedFile) (d : String) :
    d ∈ depsOfFile f files ↔
      ∃ raw, raw ∈ scanImports f.content ∧ raw ≠ "" ∧ strStartsWith "." raw = true ∧
        resolveRelativeToKnownFile f.relPath raw files = some d := by
  unfold depsOfFile
  rw [List.mem_filterMap]
  constructor
  · rintro ⟨raw, hraw, hfun⟩
    by_cases h1 : raw = ""
    · rw [if_pos h1] at hfun; cases hfun
    · rw [if_neg h1] at hfun
      by_cases h2 : strStartsWith "." raw = true
      · rw [if_pos h2] at hfun
        exact ⟨raw, hraw, h1, h2, hfun⟩
      · rw [if_neg h2] at hfun; cases hfun
  · rintro ⟨raw, hraw, h1, h2, h3⟩
    exact ⟨raw, hraw, by rw [if_neg h1, if_pos h2]; exact h3⟩

theorem depsOfFile_sub_known (f : ScannedFile) (files : List ScannedFile) :
    ∀ d ∈ depsOfFile f files, d ∈ knownRelPaths files := by
  intro d hd
  rcases (mem_depsOfFile f files d).mp hd with ⟨raw, _, _, _, h⟩
  exact resolve_mem_known _ _ _ _ h

/-! ## Line locator characterization -/

theorem findImportLineGo_eq_some_iff (a b : String) :
    ∀ (lines : List String) (k i : Nat),
      findImportLineGo a b k lines = some i ↔
        ∃ (j : Nat) (l : String), lines[j]? = some l ∧ i = k + j ∧ lineHit a b l = true ∧
          ∀ (j' : Nat) (l' : String), j' < j → lines[j']? = some l' → lineHit a b l' = false := by
  intro lines
  induction lines with
  | nil =>
    intro k i
    constructor
    · intro h; cases h
    · rintro ⟨j, l, hj, _⟩
      simp at hj
  | cons l0 rest ih =>
    intro k i
    show (if lineHit a b l0 then some k else findImportLineGo a b (k + 1) rest) = some i ↔ _
    by_cases hh : lineHit a b l0 = true
    · rw [if_pos hh]
      constructor
      · intro h
        injection h with h
        subst h
        refine ⟨0, l0, by simp, by omega, hh, ?_⟩
        intro j' l' hj' _
        omega
      · rintro ⟨j, l, hj, hi, hl, hmin⟩
        cases j with
        | zero =>
          simp at hj
          subst hj
          subst hi
          simp
        | succ j'' =>
          have := hmin 0 l0 (by omega) (by simp)
          rw [hh] at this
          cases this
    · rw [if_neg hh]
      rw [ih (k + 1) i]
      constructor
      · rintro ⟨j, l, hj, hi, hl, hmin⟩
        refine ⟨j + 1, l, by simpa using hj, by omega, hl, ?_⟩
        intro j' l' hj' hjl
        cases j' with
        | zero =>
          simp at hjl
          subst hjl
          exact Bool.eq_false_iff.mpr hh
        | succ j'' =>
          exact hmin j'' l' (by omega) (by simpa using hjl)
      · rintro ⟨j, l, hj, hi, hl, hmin⟩
        cases j with
        | zero =>
          simp at hj
          subst hj
          exact absurd hl hh
        | succ j'' =>
          refine ⟨j'', l, by simpa using hj, by omega, hl, ?_⟩
          intro j' l' hj' hjl
          exact hmin (j' + 1) l' (by omega) (by simpa using hjl)

theorem findImportLine_eq_some_iff (a b : String) (lines : List String) (i : Nat) :
    findImportLine a b lines = some i ↔
      ∃ l : String, lines[i]? = some l ∧ lineHit a b l = true ∧
        ∀ (j : Nat) (l' : String), j < i → lines[j]? = some l' → lineHit a b l' = false := by
  unfold findImportLine
  rw [findImportLineGo_eq_some_iff]
  constructor
  · rintro ⟨j, l, hj, hi, hl, hmin⟩
    have : j = i := by omega
    subst this
    exact ⟨l, hj, hl, hmin⟩
  · rintro ⟨l, hi, hl, hmin⟩
    exact ⟨i, l, hi, by omega, hl, hmin⟩

theorem findImportLineGo_eq_none_iff (a b : String) :
    ∀ (lines : List String) (k : Nat),
      findImportLineGo a b k lines = none ↔
        ∀ (j : Nat) (l : String), lines[j]? = some l → lineHit a b l = false := by
  intro lines
  induction lines with
  | nil =>
    intro k
    constructor
    · intro _ j l hj
      simp at hj
    · intro _; rfl
  | cons l0 rest ih =>
    intro k
    show (if lineHit a b l0 then some k else findImportLineGo a b (k + 1) rest) = none ↔ _
    by_cases hh : lineHit a b l0 = true
    · rw [if_pos hh]
      constructor
      · intro h; cases h
      · intro h
        have := h 0 l0 (by simp)
        rw [hh] at this
        cases this
    · rw [if_neg hh, ih (k + 1)]
      constructor
      · intro h j l hj
        cases j with
        | zero =>
          simp at hj
          subst hj
          exact Bool.eq_false_iff.mpr hh
        | succ j' => exact h j' l (by simpa using hj)
      · intro h j l hj
        exact h (j + 1) l (by simpa using hj)

theorem findImportLine_eq_none_iff (a b : String) (lines : List String) :
    findImportLine a b lines = none ↔
      ∀ (j : Nat) (l : String), lines[j]? = some l → lineHit a b l = false :=
  findImportLineGo_eq_none_iff a b lines 0

/-! ## Issue field lemmas -/

theorem mkIssue_severity (files : List ScannedFile) (c : List String) :
    (mkIssue files c).severity = Severity.ERROR := rfl

theorem mkIssue_ruleId (files : List ScannedFile) (c : List String) :
    (mkIssue files c).ruleId = "circular-deps" := rfl

theorem mkIssue_id (files : List ScannedFile) (c : List String) :
    (mkIssue files c).id = "cycle:" ++ joinSep "->" c := rfl

theorem mkIssue_line_eq (files : List ScannedFile) (start next : String)
    (t : List String) (sf : ScannedFile)
    (hf : files.find? (fun f => decide (normalize f.relPath = normalize start)) = some sf) :
    (mkIssue files (start :: next :: t)).line =
      (findImportLine start next sf.lines).map (fun i => i + 1) := by
  unfold mkIssue
  simp [hf]

theorem mkIssue_line_none (files : List ScannedFile) (start next : String)
    (t : List String) (sf : ScannedFile)
    (hf : files.find? (fun f => decide (normalize f.relPath = normalize start)) = some sf)
    (hnone : findImportLine start next sf.lines = none) :
    (mkIssue files (start :: next :: t)).line = none := by
  rw [mkIssue_line_eq files start next t sf hf, hnone]
  rfl

/-- Every recorded cycle has at least two entries. -/
theorem cycShape_cons_cons {g : Graph} {c : List String} (h : CycShape g c) :
    ∃ start next rest, c = start :: next :: rest := by
  rcases h with ⟨p, n, rfl, hmem, _⟩
  cases p with
  | nil => cases hmem
  | cons a p' =>
    cases p' with
    | nil => exact ⟨a, n, [], rfl⟩
    | cons b t => exact ⟨a, b, t ++ [n], rfl⟩

/-! ## Extractor provenance: what a captured specifier looks like in the text -/

/-- The content contains `from<ws>❰q1❱spec❰q2❱` somewhere. -/
def fromOccL (content spec : List Char) : Prop :=
  ∃ pre ws q1 q2 suf, ws ≠ [] ∧ (∀ x ∈ ws, isSpaceChar x = true) ∧
    isQuoteChar q1 = true ∧ isQuoteChar q2 = true ∧
    content = pre ++ (litFrom ++ (ws ++ (q1 :: (spec ++ (q2 :: suf)))))

/-- The content contains `import<ws>❰q1❱spec❰q2❱` somewhere, with no `from`
clause in between: a bare side-effect import. -/
def bareOccL (content spec : List Char) : Prop :=
  ∃ pre ws q1 q2 suf, ws ≠ [] ∧ (∀ x ∈ ws, isSpaceChar x = true) ∧
    isQuoteChar q1 = true ∧ isQuoteChar q2 = true ∧
    content = pre ++ (litImport ++ (ws ++ (q1 :: (spec ++ (q2 :: suf)))))

/-- The content contains `require(❰q1❱spec❰q2❱)` somewhere. -/
def requireOccL (content spec : List Char) : Prop :=
  ∃ pre q1 q2 suf, isQuoteChar q1 = true ∧ isQuoteChar q2 = true ∧
    content = pre ++ (litRequire ++ (q1 :: (spec ++ (q2 :: (')' :: suf)))))

theorem isPrefixOf_decomp {l cs : List Char} (h : l.isPrefixOf cs = true) :
    ∃ t, cs = l ++ t := by
  rcases List.isPrefixOf_iff_prefix.mp h with ⟨t, ht⟩
  exact ⟨t, ht.symm⟩

theorem take_all_spaces (p : Char → Bool) :
    ∀ (cs : List Char) (k : Nat), k ≤ (cs.takeWhile p).length →
      ∀ x ∈ cs.take k, p x = true := by
  intro cs
  induction cs with
  | nil =>
    intro k _ x hx
    simp at hx
  | cons c t ih =>
    intro k hk x hx
    by_cases hc : p c = true
    · rw [List.takeWhile_cons_of_pos hc] at hk
      cases k with
      | zero => simp at hx
      | succ k' =>
        rw [List.take_succ_cons] at hx
        rcases List.mem_cons.mp hx with h | h
        · exact h ▸ hc
        · exact ih k' (by simpa using hk) x h
    · rw [List.takeWhile_cons_of_neg (by simpa using hc)] at hk
      simp at hk
      subst hk
      simp at hx

theorem tryQuoteCapture_decomp {cs cap rest : List Char}
    (h : tryQuoteCapture cs = some (cap, rest)) :
    ∃ q1 q2, isQuoteChar q1 = true ∧ isQuoteChar q2 = true ∧ cap ≠ [] ∧
      cs = q1 :: (cap ++ (q2 :: rest)) := by
  cases cs with
  | nil => cases h
  | cons c rest0 =>
    simp only [tryQuoteCapture] at h
    by_cases hq : isQuoteChar c = true
    · rw [if_pos hq] at h
      by_cases he : (rest0.takeWhile (fun d => !(isQuoteChar d))).isEmpty = true
      · rw [if_pos he] at h; cases h
      · rw [if_neg he] at h
        cases hd : rest0.dropWhile (fun d => !(isQuoteChar d)) with
        | nil => rw [hd] at h; cases h
        | cons d rest2 =>
          rw [hd] at h
          simp only at h
          by_cases hqd : isQuoteChar d = true
          · rw [if_pos hqd] at h
            simp only [Option.some.injEq, Prod.mk.injEq] at h
            obtain ⟨h1, h2⟩ := h
            subst h1
            subst h2
            refine ⟨c, d, hq, hqd, ?_, ?_⟩
            · intro hnil
              rw [hnil] at he
              simp at he
            · have hsplit := List.takeWhile_append_dropWhile (fun d => !(isQuoteChar d)) rest0
              have h2 := congrArg
                (fun x => rest0.takeWhile (fun d => !(isQuoteChar d)) ++ x) hd
              simp only at h2
              rw [hsplit] at h2
              exact congrArg (fun x => c :: x) h2
          · rw [if_neg hqd] at h; cases h
    · rw [if_neg hq] at h; cases h

theorem tryAfterFrom_decomp {cs cap rest : List Char}
    (h : tryAfterFrom cs = some (cap, rest)) :
    ∃ ws q1 q2, ws ≠ [] ∧ (∀ x ∈ ws, isSpaceChar x = true) ∧
      isQuoteChar q1 = true ∧ isQuoteChar q2 = true ∧
      cs = litFrom ++ (ws ++ (q1 :: (cap ++ (q2 :: rest)))) := by
  unfold tryAfterFrom at h
  by_cases hp : litFrom.isPrefixOf cs = true
  · rw [if_pos hp] at h
    rcases isPrefixOf_decomp hp with ⟨t, rfl⟩
    have hdrop : (litFrom ++ t).drop 4 = t := rfl
    rw [hdrop] at h
    by_cases he : (t.takeWhile isSpaceChar).isEmpty = true
    · rw [if_pos he] at h; cases h
    · rw [if_neg he] at h
      rcases tryQuoteCapture_decomp h with ⟨q1, q2, hq1, hq2, _, heq⟩
      refine ⟨t.takeWhile isSpaceChar, q1, q2, ?_, ?_, hq1, hq2, ?_⟩
      · intro hnil
        rw [hnil] at he
        simp at he
      · intro x hx
        exact List.mem_takeWhile_imp hx
      · have hsplit := List.takeWhile_append_dropWhile isSpaceChar t
        have h2 := congrArg (fun x => t.takeWhile isSpaceChar ++ x) heq
        simp only at h2
        rw [hsplit] at h2
        exact congrArg (fun x => litFrom ++ x) h2
  · rw [if_neg hp] at h; cases h

theorem tryGroupDesc_decomp :
    ∀ (j : Nat) (cs cap rest : List Char),
      tryGroupDesc j cs = some (cap, rest) →
      ∃ mid, tryAfterFrom (cs.drop mid) = some (cap, rest) := by
  intro j
  induction j with
  | zero => intro cs cap rest h; cases h
  | succ j' ih =>
    intro cs cap rest h
    unfold tryGroupDesc at h
    cases hd : tryAfterFrom (cs.drop (j' + 1)) with
    | some r =>
      rw [hd] at h
      injection h with h
      subst h
      exact ⟨j' + 1, hd⟩
    | none =>
      rw [hd] at h
      exact ih cs cap rest h

theorem tryAfterWs_decomp {tail : List Char} {km : MatchKind} {cap rest : List Char}
    (h : tryAfterWs tail = some (km, cap, rest)) :
    (km = MatchKind.fromImport ∧ ∃ pre2 ws2 q1 q2, ws2 ≠ [] ∧
        (∀ x ∈ ws2, isSpaceChar x = true) ∧
        isQuoteChar q1 = true ∧ isQuoteChar q2 = true ∧
        tail = pre2 ++ (litFrom ++ (ws2 ++ (q1 :: (cap ++ (q2 :: rest)))))) ∨
    (km = MatchKind.bareImport ∧ ∃ q1 q2, isQuoteChar q1 = true ∧ isQuoteChar q2 = true ∧
        tail = q1 :: (cap ++ (q2 :: rest))) := by
  unfold tryAfterWs at h
  cases hg : tryGroupDesc ((tail.takeWhile (fun c => !(isQuoteChar c))).length) tail with
  | some r =>
    rw [hg] at h
    obtain ⟨cap0, rest0⟩ := r
    simp only [Option.some.injEq, Prod.mk.injEq] at h
    obtain ⟨hkm, hcap, hrest⟩ := h
    subst hkm; subst hcap; subst hrest
    rcases tryGroupDesc_decomp _ tail cap0 rest0 hg with ⟨mid, hmid⟩
    rcases tryAfterFrom_decomp hmid with ⟨ws2, q1, q2, hws, hsp, hq1, hq2, heq⟩
    left
    refine ⟨rfl, tail.take mid, ws2, q1, q2, hws, hsp, hq1, hq2, ?_⟩
    have hsplit := List.take_append_drop mid tail
    rw [heq] at hsplit
    exact hsplit.symm
  | none =>
    rw [hg] at h
    cases hq : tryQuoteCapture tail with
    | some r =>
      rw [hq] at h
      obtain ⟨cap0, rest0⟩ := r
      simp only [Option.some.injEq, Prod.mk.injEq] at h
      obtain ⟨hkm, hcap, hrest⟩ := h
      subst hkm; subst hcap; subst hrest
      rcases tryQuoteCapture_decomp hq with ⟨q1, q2, hq1, hq2, _, heq⟩
      right
      exact ⟨rfl, q1, q2, hq1, hq2, heq⟩
    | none => rw [hq] at h; cases h

theorem tryWsDesc_decomp :
    ∀ (k : Nat) (cs : List Char) (km : MatchKind) (cap rest : List Char),
      k ≤ (cs.takeWhile isSpaceChar).length →
      tryWsDesc k cs = some (km, cap, rest) →
      ∃ ws tail, ws ≠ [] ∧ (∀ x ∈ ws, isSpaceChar x = true) ∧ cs = ws ++ tail ∧
        tryAfterWs tail = some (km, cap, rest) := by
  intro k
  induction k with
  | zero => intro cs km cap rest _ h; cases h
  | succ k' ih =>
    intro cs km cap rest hk h
    unfold tryWsDesc at h
    cases hd : tryAfterWs (cs.drop (k' + 1)) with
    | some r =>
      rw [hd] at h
      injection h with h
      subst h
      refine ⟨cs.take (k' + 1), cs.drop (k' + 1), ?_, ?_, (List.take_append_drop _ _).symm, hd⟩
      · intro hnil
        have hlen := congrArg List.length hnil
        rw [List.length_take] at hlen
        simp only [List.length_nil] at hlen
        have h1 : (cs.takeWhile isSpaceChar).length ≤ cs.length :=
          List.Sublist.length_le (List.takeWhile_sublist _)
        omega
      · exact take_all_spaces isSpaceChar cs (k' + 1) hk
    | none =>
      rw [hd] at h
      exact ih cs km cap rest (by omega) h

theorem tryAlt2_decomp {cs : List Char} {km : MatchKind} {cap rest : List Char}
    (h : tryAlt2 cs = some (km, cap, rest)) :
    km = MatchKind.requireCall ∧ ∃ q1 q2, isQuoteChar q1 = true ∧ isQuoteChar q2 = true ∧
      cs = litRequire ++ (q1 :: (cap ++ (q2 :: (')' :: rest)))) := by
  unfold tryAlt2 at h
  by_cases hp : litRequire.isPrefixOf cs = true
  · rw [if_pos hp] at h
    rcases isPrefixOf_decomp hp with ⟨t, rfl⟩
    have hdrop : (litRequire ++ t).drop 8 = t := rfl
    rw [hdrop] at h
    cases hq : tryQuoteCapture t with
    | none => rw [hq] at h; cases h
    | some r =>
      rw [hq] at h
      obtain ⟨cap0, rest0⟩ := r
      cases rest0 with
      | nil => cases h
      | cons c0 rest2 =>
        simp only at h
        by_cases hc : c0 = ')'
        · rw [if_pos hc] at h
          simp only [Option.some.injEq, Prod.mk.injEq] at h
          obtain ⟨hkm, hcap, hrest⟩ := h
          subst hkm; subst hcap; subst hrest
          rcases tryQuoteCapture_decomp hq with ⟨q1, q2, hq1, hq2, _, heq⟩
          subst hc
          exact ⟨rfl, q1, q2, hq1, hq2, by rw [heq]⟩
        · rw [if_neg hc] at h; cases h
  · rw [if_neg hp] at h; cases h

theorem tryAlt1_decomp {cs : List Char} {km : MatchKind} {cap rest : List Char}
    (h : tryAlt1 cs = some (km, cap, rest)) :
    ∃ ws tail, ws ≠ [] ∧ (∀ x ∈ ws, isSpaceChar x = true) ∧
      cs = litImport ++ (ws ++ tail) ∧ tryAfterWs tail = some (km, cap, rest) := by
  unfold tryAlt1 at h
  by_cases hp : litImport.isPrefixOf cs = true
  · rw [if_pos hp] at h
    rcases isPrefixOf_decomp hp with ⟨t, rfl⟩
    have hdrop : (litImport ++ t).drop 6 = t := rfl
    rw [hdrop] at h
    rcases tryWsDesc_decomp _ t km cap rest (Nat.le_refl _) h with
      ⟨ws, tail, hws, hsp, ht, hws2⟩
    exact ⟨ws, tail, hws, hsp, by rw [ht], hws2⟩
  · rw [if_neg hp] at h; cases h

theorem fromOccL_mono {pre0 content spec : List Char} (h : fromOccL content spec) :
    fromOccL (pre0 ++ content) spec := by
  rcases h with ⟨pre, ws, q1, q2, suf, h1, h2, h3, h4, h5⟩
  exact ⟨pre0 ++ pre, ws, q1, q2, suf, h1, h2, h3, h4, by rw [h5, List.append_assoc]⟩

theorem bareOccL_mono {pre0 content spec : List Char} (h : bareOccL content spec) :
    bareOccL (pre0 ++ content) spec := by
  rcases h with ⟨pre, ws, q1, q2, suf, h1, h2, h3, h4, h5⟩
  exact ⟨pre0 ++ pre, ws, q1, q2, suf, h1, h2, h3, h4, by rw [h5, List.append_assoc]⟩

theorem requireOccL_mono {pre0 content spec : List Char} (h : requireOccL content spec) :
    requireOccL (pre0 ++ content) spec := by
  rcases h with ⟨pre, q1, q2, suf, h1, h2, h3⟩
  exact ⟨pre0 ++ pre, q1, q2, suf, h1, h2, by rw [h3, List.append_assoc]⟩

theorem tryMatchAt_provenance {cs : List Char} {km : MatchKind} {cap rest : List Char}
    (h : tryMatchAt cs = some (km, cap, rest)) :
    (∃ X, cs = X ++ rest) ∧
    (km = MatchKind.fromImport → fromOccL cs cap) ∧
    (km = MatchKind.bareImport → bareOccL cs cap) ∧
    (km = MatchKind.requireCall → requireOccL cs cap) := by
  unfold tryMatchAt at h
  cases h1 : tryAlt1 cs with
  | some r =>
    rw [h1] at h
    injection h with h
    subst h
    rcases tryAlt1_decomp h1 with ⟨ws, tail, hws, hsp, hcs, haw⟩
    rcases tryAfterWs_decomp haw with
      ⟨hkm, pre2, ws2, q1, q2, hws2, hsp2, hq1, hq2, htail⟩ |
      ⟨hkm, q1, q2, hq1, hq2, htail⟩
    · subst hkm
      refine ⟨⟨litImport ++ ws ++ pre2 ++ litFrom ++ ws2 ++ q1 :: cap ++ [q2], ?_⟩,
        ?_, ?_, ?_⟩
      · rw [hcs, htail]
        simp [List.append_assoc]
      · intro _
        rw [hcs, htail]
        refine ⟨litImport ++ ws ++ pre2, ws2, q1, q2, rest, hws2, hsp2, hq1, hq2, ?_⟩
        simp [List.append_assoc]
      · intro hx; cases hx
      · intro hx; cases hx
    · subst hkm
      refine ⟨⟨litImport ++ ws ++ q1 :: cap ++ [q2], ?_⟩, ?_, ?_, ?_⟩
      · rw [hcs, htail]
        simp [List.append_assoc]
      · intro hx; cases hx
      · intro _
        rw [hcs, htail]
        exact ⟨[], ws, q1, q2, rest, hws, hsp, hq1, hq2, by simp [List.append_assoc]⟩
      · intro hx; cases hx
  | none =>
    rw [h1] at h
    rcases tryAlt2_decomp h with ⟨hkm, q1, q2, hq1, hq2, hcs⟩
    subst hkm
    refine ⟨⟨litRequire ++ q1 :: cap ++ [q2] ++ [')'], ?_⟩, ?_, ?_, ?_⟩
    · rw [hcs]
      simp [List.append_assoc]
    · intro hx; cases hx
    · intro hx; cases hx
    · intro _
      exact ⟨[], q1, q2, rest, hq1, hq2, by rw [hcs]; simp⟩

theorem scanGo_provenance :
    ∀ (fuel : Nat) (cs content : List Char), (∃ pre0, content = pre0 ++ cs) →
      ∀ km s, (km, s) ∈ scanGo fuel cs →
        (km = MatchKind.fromImport → fromOccL content s.toList) ∧
        (km = MatchKind.bareImport → bareOccL content s.toList) ∧
        (km = MatchKind.requireCall → requireOccL content s.toList) := by
  intro fuel
  induction fuel with
  | zero =>
    intro cs content _ km s h
    cases h
  | succ fuel ih =>
    intro cs content hpre km s h
    cases cs with
    | nil => cases h
    | cons c rest =>
      cases hm : tryMatchAt (c :: rest) with
      | some r =>
        obtain ⟨km0, cap, remaining⟩ := r
        rw [show scanGo (fuel + 1) (c :: rest) =
            (km0, String.mk cap) :: scanGo fuel remaining from by
          simp [scanGo, hm]] at h
        rcases List.mem_cons.mp h with h | h
        · simp only [Prod.mk.injEq] at h
          obtain ⟨hkm, hs⟩ := h
          subst hkm
          subst hs
          rcases hpre with ⟨pre0, rfl⟩
          have hp := tryMatchAt_provenance hm
          have hlist : (String.mk cap).toList = cap := rfl
          rw [hlist]
          exact ⟨fun hx => fromOccL_mono (hp.2.1 hx),
                 fun hx => bareOccL_mono (hp.2.2.1 hx),
                 fun hx => requireOccL_mono (hp.2.2.2 hx)⟩
        · rcases hpre with ⟨pre0, rfl⟩
          rcases (tryMatchAt_provenance hm).1 with ⟨X, hX⟩
          exact ih remaining _ ⟨pre0 ++ X, by rw [hX, List.append_assoc]⟩ km s h
      | none =>
        rw [show scanGo (fuel + 1) (c :: rest) = scanGo fuel rest from by
          simp [scanGo, hm]] at h
        rcases hpre with ⟨pre0, rfl⟩
        exact ih rest _ ⟨pre0 ++ [c], by simp⟩ km s h

/-- Every specifier captured by the extractor comes from a `from`-style
occurrence, a bare `import "spec"` occurrence, or a `require("spec")`
occurrence present verbatim in the content. -/
theorem scanTagged_provenance (content : String) (km : MatchKind) (s : String)
    (h : (km, s) ∈ scanTagged content) :
    (km = MatchKind.fromImport → fromOccL content.toList s.toList) ∧
    (km = MatchKind.bareImport → bareOccL content.toList s.toList) ∧
    (km = MatchKind.requireCall → requireOccL content.toList s.toList) :=
  scanGo_provenance content.toList.length content.toList content.toList
    ⟨[], rfl⟩ km s h

/-! ## Concrete snapshots (mirroring the repository's test inputs) -/

def fileA : ScannedFile :=
  ⟨"/src/a.ts", "src/a.ts", "import { b } from \"./b\";", ["import { b } from \"./b\";"]⟩

def fileB : ScannedFile :=
  ⟨"/src/b.ts", "src/b.ts", "import { a } from \"./a\";", ["import { a } from \"./a\";"]⟩

/-- Two mutually importing files. -/
def snapTwo : List ScannedFile := [fileA, fileB]

def lineA : ScannedFile :=
  ⟨"/src/a.ts", "src/a.ts",
   "console.log(\"test\");\nimport { b } from \"./b\";\nconst x = 1;",
   ["console.log(\"test\");", "import { b } from \"./b\";", "const x = 1;"]⟩

/-- The import closing the cycle sits on line 2 of `a`, after an unrelated
statement. -/
def snapLine : List ScannedFile := [lineA, fileB]

def dirA : ScannedFile :=
  ⟨"/a.ts", "a.ts", "import x from \"./dir\";", ["import x from \"./dir\";"]⟩

def dirIndex : ScannedFile :=
  ⟨"/dir/index.ts", "dir/index.ts", "import { a } from \"../a\";",
   ["import { a } from \"../a\";"]⟩

/-- A cycle through an `index.ts` resolution whose recomputed specifier does
not occur verbatim in the importing file. -/
def snapIndex : List ScannedFile := [dirA, dirIndex]

def chainA : ScannedFile :=
  ⟨"/a.ts", "a.ts", "import { b } from \"./b\";", ["import { b } from \"./b\";"]⟩

def chainB : ScannedFile :=
  ⟨"/b.ts", "b.ts", "import { c } from \"./c\";", ["import { c } from \"./c\";"]⟩

def chainC : ScannedFile :=
  ⟨"/c.ts", "c.ts", "import { b } from \"./b\";", ["import { b } from \"./b\";"]⟩

/-- A chain `a → b → c` followed by the back edge `c → b`: the cycle `b → c → b`
is entered from the outside node `a`. -/
def snapChain : List ScannedFile := [chainA, chainB, chainC]

def reactA : ScannedFile :=
  ⟨"/src/a.ts", "src/a.ts",
   "import React from \"react\"; import { b } from \"./b\";",
   ["import React from \"react\"; import { b } from \"./b\";"]⟩

/-- A package import co-located with a relative import that forms a cycle. -/
def snapReact : List ScannedFile := [reactA, fileB]

def plainFile : ScannedFile :=
  ⟨"/w.ts", "w.ts", "const x = 1;", ["const x = 1;"]⟩

/-- A single file with no imports: an acyclic snapshot. -/
def snapPlain : List ScannedFile := [plainFile]

/-- A bare side-effect import, with no `from` keyword and no `require`. -/
def bareContent : String := "import \"./b\";"

/-! ## Claims -/

/-- C10: `circularDepsRule.run` terminates on every finite snapshot, even on
cyclic import graphs: the traversal, which visits each node's exploration
body at most once because nodes enter the visited set on entry, always
produces an issue list. -/
theorem c10_run_terminates (files : List ScannedFile) :
    ∃ issues, circularDepsRun files = some issues := by
  rcases runDfs_isSome files with ⟨st, h⟩
  exact ⟨st.cycles.map (mkIssue files), circularDepsRun_eq files st h⟩

/-- C4: on a snapshot whose resolved import graph is acyclic,
`circularDepsRule.run` returns the empty issue list, regardless of the depth
of the import chains. -/
theorem c4_acyclic_no_issues (files : List ScannedFile)
    (hacy : Acyclic (buildGraph files)) :
    circularDepsRun files = some [] := by
  rcases runDfs_isSome files with ⟨st, h⟩
  have hshape := runDfs_cycles_shape files st h
  have hnil : st.cycles = [] := by
    rw [List.eq_nil_iff_forall_not_mem]
    intro c hc
    rcases cycShape_transGen (hshape c hc) with ⟨n, hn⟩
    exact hacy n hn
  rw [circularDepsRun_eq files st h, hnil]
  rfl

/-- Witness for C4 at a concrete acyclic snapshot. -/
theorem c4_witness :
    Acyclic (buildGraph snapPlain) ∧ circularDepsRun snapPlain = some [] := by
  have hdeps : ∀ a, getDeps (buildGraph snapPlain) a = [] := by
    intro a
    have hg : buildGraph snapPlain = [("w.ts", [])] := by decide
    rw [hg]
    unfold getDeps
    cases hf : List.find? (fun e => decide (e.1 = a)) [("w.ts", ([] : List String))] with
    | none => rfl
    | some e =>
      have he := List.mem_of_find?_eq_some hf
      simp only [List.mem_singleton] at he
      rw [he]
  have hacy : Acyclic (buildGraph snapPlain) := by
    intro n hn
    have hedge : ∀ a b, ¬ EdgeRel (buildGraph snapPlain) a b := by
      intro a b hb
      have hb' : b ∈ getDeps (buildGraph snapPlain) a := hb
      rw [hdeps a] at hb'
      cases hb'
    cases hn with
    | single h => exact hedge _ _ h
    | tail _ h => exact hedge _ _ h
  exact ⟨hacy, c4_acyclic_no_issues snapPlain hacy⟩

/-- C1 counterexample: entering the 2-cycle `b → c → b` from the outside node
`a` records the cycle `[a.ts, b.ts, c.ts, b.ts]`, whose first node does not
equal its repeated last node — the recorded sequence includes a path node
that precedes the first occurrence of the on-stack neighbor. -/
theorem c1_counterexample :
    runCycles snapChain = some [["a.ts", "b.ts", "c.ts", "b.ts"]] ∧
    ["a.ts", "b.ts", "c.ts", "b.ts"].head? ≠
      ["a.ts", "b.ts", "c.ts", "b.ts"].getLast? := by
  exact ⟨by decide, by decide⟩

/-- C1 amended: every reported cycle is the entire active DFS path with the
on-stack neighbor appended; each consecutive pair is an edge of the built
graph and the final node occurs somewhere in the path, but nodes
preceding its first occurrence are included, so the first node need not equal
the repeated last node. -/
theorem c1_amended_cycle_shape (files : List ScannedFile) (cs : List (List String))
    (h : runCycles files = some cs) :
    ∀ c ∈ cs, ∃ p n, c = p ++ [n] ∧ n ∈ p ∧
      List.Chain' (EdgeRel (buildGraph files)) c := by
  unfold runCycles at h
  cases hr : runDfs files with
  | none => rw [hr] at h; cases h
  | some st =>
    rw [hr] at h
    simp only [Option.map_some'] at h
    intro c hc
    have hcs : st.cycles = cs := Option.some.inj h
    rcases runDfs_cycles_shape files st hr c (hcs ▸ hc) with
      ⟨p, n, heq, hmem, hchain⟩
    exact ⟨p, n, heq, hmem, by rw [heq]; exact hchain⟩

/-- Witness for the amended C1 at the chain snapshot. -/
theorem c1_amended_witness :
    runCycles snapChain = some [["a.ts", "b.ts", "c.ts", "b.ts"]] ∧
    ∃ p n, ["a.ts", "b.ts", "c.ts", "b.ts"] = p ++ [n] ∧ n ∈ p ∧
      List.Chain' (EdgeRel (buildGraph snapChain)) ["a.ts", "b.ts", "c.ts", "b.ts"] := by
  have h : runCycles snapChain = some [["a.ts", "b.ts", "c.ts", "b.ts"]] := by decide
  exact ⟨h, c1_amended_cycle_shape snapChain _ h _ (List.mem_singleton.mpr rfl)⟩

/-- C7: the node set of the built graph is exactly the set of slash-normalized
relPaths of the input files, each contributing one node (no duplicates), and
every edge target is itself a node of the graph. -/
theorem c7_graph_nodes (files : List ScannedFile) :
    (∀ k, k ∈ graphKeys (buildGraph files) ↔ k ∈ knownRelPaths files) ∧
    (graphKeys (buildGraph files)).Nodup ∧
    (∀ n d, EdgeRel (buildGraph files) n d → d ∈ graphKeys (buildGraph files)) := by
  refine ⟨mem_graphKeys_buildGraph files, nodup_graphKeys_buildGraph files, ?_⟩
  intro n d hd
  have hd' : d ∈ getDeps (buildGraph files) n := hd
  unfold getDeps at hd'
  cases hf : (buildGraph files).find? (fun e => decide (e.1 = n)) with
  | none => rw [hf] at hd'; cases hd'
  | some e =>
    rw [hf] at hd'
    have he := List.mem_of_find?_eq_some hf
    rcases mem_buildGraph_entries files e he with ⟨f, _, rfl⟩
    have := depsOfFile_sub_known f files d hd'
    exact (mem_graphKeys_buildGraph files d).mpr this

/-- Witness for C7 at the two-file snapshot. -/
theorem c7_witness :
    ("src/b.ts" ∈ graphKeys (buildGraph snapTwo) ↔ "src/b.ts" ∈ knownRelPaths snapTwo) ∧
    (graphKeys (buildGraph snapTwo)).Nodup ∧
    EdgeRel (buildGraph snapTwo) "src/a.ts" "src/b.ts" ∧
    "src/b.ts" ∈ graphKeys (buildGraph snapTwo) := by
  have h := c7_graph_nodes snapTwo
  have hedge : EdgeRel (buildGraph snapTwo) "src/a.ts" "src/b.ts" := by
    show "src/b.ts" ∈ getDeps (buildGraph snapTwo) "src/a.ts"
    decide
  exact ⟨h.1 "src/b.ts", h.2.1, hedge, h.2.2 "src/a.ts" "src/b.ts" hedge⟩

/-- C3: the resolver tests exactly the ordered candidate list — the joined
path verbatim, then with `.ts`, `.tsx`, `.js`, `.jsx` appended, then as a
directory with `index.ts`, `index.tsx`, `index.js`, `index.jsx` appended —
against the set of normalized known relPaths, returns the first candidate
present, and reports the specifier unresolved exactly when none is
present. -/
theorem c3_resolver_first_match (fromRel raw : String) (files : List ScannedFile) :
    (candidateList fromRel raw =
      [normalize (pathJoin (pathDirname fromRel) raw),
       normalize (pathJoin (pathDirname fromRel) raw) ++ ".ts",
       normalize (pathJoin (pathDirname fromRel) raw) ++ ".tsx",
       normalize (pathJoin (pathDirname fromRel) raw) ++ ".js",
       normalize (pathJoin (pathDirname fromRel) raw) ++ ".jsx",
       normalize (pathJoin (normalize (pathJoin (pathDirname fromRel) raw)) "index.ts"),
       normalize (pathJoin (normalize (pathJoin (pathDirname fromRel) raw)) "index.tsx"),
       normalize (pathJoin (normalize (pathJoin (pathDirname fromRel) raw)) "index.js"),
       normalize (pathJoin (normalize (pathJoin (pathDirname fromRel) raw)) "index.jsx")]) ∧
    (∀ r, resolveRelativeToKnownFile fromRel raw files = some r →
      r ∈ knownRelPaths files ∧
      ∃ pre post, candidateList fromRel raw = pre ++ r :: post ∧
        ∀ c ∈ pre, c ∉ knownRelPaths files) ∧
    (resolveRelativeToKnownFile fromRel raw files = none ↔
      ∀ c ∈ candidateList fromRel raw, c ∉ knownRelPaths files) := by
  refine ⟨rfl, ?_, ?_⟩
  · intro r h
    unfold resolveRelativeToKnownFile at h
    rcases find?_eq_some_split _ _ _ h with ⟨hr, pre, post, heq, hpre⟩
    refine ⟨of_decide_eq_true hr, pre, post, heq, ?_⟩
    intro c hc
    have := hpre c hc
    simpa using this
  · unfold resolveRelativeToKnownFile
    rw [List.find?_eq_none]
    constructor
    · intro h c hc
      have := h c hc
      simpa using this
    · intro h c hc
      simpa using h c hc

/-- Witness for C3: `./b` from `src/a.ts` resolves to `src/b.ts` via the
`.ts`-appended candidate. -/
theorem c3_witness :
    resolveRelativeToKnownFile "src/a.ts" "./b" snapTwo = some "src/b.ts" ∧
    "src/b.ts" ∈ knownRelPaths snapTwo ∧
    ∃ pre post, candidateList "src/a.ts" "./b" = pre ++ "src/b.ts" :: post ∧
      ∀ c ∈ pre, c ∉ knownRelPaths snapTwo := by
  have h := (c3_resolver_first_match "src/a.ts" "./b" snapTwo).2.1 "src/b.ts" (by decide)
  exact ⟨by decide, h.1, h.2⟩

/-- C9: the rule has no failure mode: edges only arise from successfully
resolved specifiers (an unresolvable one contributes nothing), the empty
snapshot yields the empty issue list, and a detected cycle whose import line
cannot be located is still emitted as an issue with `line` absent. -/
theorem c9_no_failure_modes :
    (∀ (f : ScannedFile) (files : List ScannedFile) (d : String),
      d ∈ depsOfFile f files →
      ∃ raw, raw ∈ scanImports f.content ∧
        resolveRelativeToKnownFile f.relPath raw files = some d) ∧
    circularDepsRun [] = some [] ∧
    (∀ (files : List ScannedFile) (st : DfsState), runDfs files = some st →
      ∀ c ∈ st.cycles,
        mkIssue files c ∈ (circularDepsRun files).getD [] ∧
        ∀ start next rest, c = start :: next :: rest →
          ∀ sf, files.find?
              (fun f => decide (normalize f.relPath = normalize start)) = some sf →
            findImportLine start next sf.lines = none →
            (mkIssue files c).line = none) := by
  refine ⟨?_, by decide, ?_⟩
  · intro f files d hd
    rcases (mem_depsOfFile f files d).mp hd with ⟨raw, hraw, _, _, hres⟩
    exact ⟨raw, hraw, hres⟩
  · intro files st hrun c hc
    constructor
    · rw [circularDepsRun_eq files st hrun]
      exact List.mem_map_of_mem _ hc
    · intro start next rest hceq sf hf hnone
      subst hceq
      exact mkIssue_line_none files start next rest sf hf hnone

/-- Witness for C9 at the `index.ts` snapshot: the cycle is reported although
its import line cannot be located, with `line` absent. -/
theorem c9_witness :
    "dir/index.ts" ∈ depsOfFile dirA snapIndex ∧
    (∃ raw, raw ∈ scanImports dirA.content ∧
      resolveRelativeToKnownFile dirA.relPath raw snapIndex = some "dir/index.ts") ∧
    circularDepsRun [] = some [] ∧
    mkIssue snapIndex ["a.ts", "dir/index.ts", "a.ts"] ∈
      (circularDepsRun snapIndex).getD [] ∧
    findImportLine "a.ts" "dir/index.ts" dirA.lines = none ∧
    (mkIssue snapIndex ["a.ts", "dir/index.ts", "a.ts"]).line = none := by
  have h := c9_no_failure_modes
  have hrun : runDfs snapIndex =
      some ⟨["a.ts", "dir/index.ts"], [], [["a.ts", "dir/index.ts", "a.ts"]]⟩ := by decide
  have hcyc := h.2.2 snapIndex _ hrun ["a.ts", "dir/index.ts", "a.ts"] (by decide)
  refine ⟨by decide, h.1 dirA snapIndex _ (by decide), h.2.1, hcyc.1, by decide, ?_⟩
  exact hcyc.2 "a.ts" "dir/index.ts" ["a.ts"] rfl dirA (by decide) (by decide)

/-- C6: for a reported cycle `start :: next :: …`, the issue's `line` is one
plus the 0-based index of the first line of `start` that matches a
`from "<spec>"`- or `require("<spec>")`-shaped occurrence of either
recomputed relative specifier (extensionless or with extension). -/
theorem c6_line_attribution (files : List ScannedFile) (st : DfsState)
    (hrun : runDfs files = some st) (c : List String) (hc : c ∈ st.cycles) :
    ∃ start next rest, c = start :: next :: rest ∧
      mkIssue files c ∈ (circularDepsRun files).getD [] ∧
      ∀ sf, files.find?
          (fun f => decide (normalize f.relPath = normalize start)) = some sf →
        (mkIssue files c).line = (findImportLine start next sf.lines).map (fun i => i + 1) ∧
        ∀ i : Nat, findImportLine start next sf.lines = some i ↔
          ∃ l : String, sf.lines[i]? = some l ∧ lineHit start next l = true ∧
            ∀ (j : Nat) (l' : String), j < i → sf.lines[j]? = some l' →
              lineHit start next l' = false := by
  rcases cycShape_cons_cons (runDfs_cycles_shape files st hrun c hc) with
    ⟨start, next, rest, rfl⟩
  refine ⟨start, next, rest, rfl, ?_, ?_⟩
  · rw [circularDepsRun_eq files st hrun]
    exact List.mem_map_of_mem _ hc
  · intro sf hf
    exact ⟨mkIssue_line_eq files start next rest sf hf,
           fun i => findImportLine_eq_some_iff start next sf.lines i⟩

/-- Witness for C6: an import preceded by an unrelated line is attributed to
line 2, the exact 1-based index of the import statement, not line 1. -/
theorem c6_witness :
    (mkIssue snapLine ["src/a.ts", "src/b.ts", "src/a.ts"]).line = some 2 ∧
    findImportLine "src/a.ts" "src/b.ts" lineA.lines = some 1 ∧
    lineHit "src/a.ts" "src/b.ts" "import { b } from \"./b\";" = true ∧
    lineHit "src/a.ts" "src/b.ts" "console.log(\"test\");" = false := by
  have hrun : runDfs snapLine =
      some ⟨["src/a.ts", "src/b.ts"], [], [["src/a.ts", "src/b.ts", "src/a.ts"]]⟩ := by
    decide
  have h := c6_line_attribution snapLine _ hrun
    ["src/a.ts", "src/b.ts", "src/a.ts"] (by decide)
  rcases h with ⟨start, next, rest, heq, _, hline⟩
  have hs : start = "src/a.ts" := (List.cons.inj heq).1.symm
  have hn : next = "src/b.ts" := (List.cons.inj (List.cons.inj heq).2).1.symm
  subst hs; subst hn
  have hl := hline lineA (by decide)
  refine ⟨?_, by decide, by decide, by decide⟩
  rw [hl.1]
  decide

/-- C2: a snapshot of exactly two files whose extracted relative imports
resolve to each other produces exactly one issue, with severity `ERROR`,
`ruleId` `circular-deps`, and the length-2 cycle `[n1, n2, n1]`. -/
theorem c2_mutual_import_one_issue (f1 f2 : ScannedFile)
    (hne : normalize f1.relPath ≠ normalize f2.relPath)
    (hd1 : depsOfFile f1 [f1, f2] = [normalize f2.relPath])
    (hd2 : depsOfFile f2 [f1, f2] = [normalize f1.relPath]) :
    runCycles [f1, f2] =
      some [[normalize f1.relPath, normalize f2.relPath, normalize f1.relPath]] ∧
    circularDepsRun [f1, f2] =
      some [mkIssue [f1, f2]
        [normalize f1.relPath, normalize f2.relPath, normalize f1.relPath]] ∧
    (mkIssue [f1, f2]
      [normalize f1.relPath, normalize f2.relPath, normalize f1.relPath]).severity =
      Severity.ERROR ∧
    (mkIssue [f1, f2]
      [normalize f1.relPath, normalize f2.relPath, normalize f1.relPath]).ruleId =
      "circular-deps" := by
  have hne2 : normalize f2.relPath ≠ normalize f1.relPath := hne.symm
  have hg : buildGraph [f1, f2] =
      [(normalize f1.relPath, [normalize f2.relPath]),
       (normalize f2.relPath, [normalize f1.relPath])] := by
    unfold buildGraph
    rw [List.foldl_cons, List.foldl_cons, List.foldl_nil, hd1, hd2]
    simp [mapSet, hne]
  have hrun : runDfs [f1, f2] =
      some ⟨[normalize f1.relPath, normalize f2.relPath], [],
            [[normalize f1.relPath, normalize f2.relPath, normalize f1.relPath]]⟩ := by
    unfold runDfs
    dsimp only
    rw [hg]
    rw [show dfsFuel [(normalize f1.relPath, [normalize f2.relPath]),
        (normalize f2.relPath, [normalize f1.relPath])] = 5 from rfl]
    simp only [graphKeys, List.map_cons, List.map_nil]
    rw [dfsList_cons, dfs_succ]
    rw [if_neg (by simp), if_neg (by simp)]
    rw [getDeps_cons_self]
    rw [dfsList_cons, dfs_succ]
    rw [if_neg (by simp [hne2]), if_neg (by simp [hne2])]
    rw [getDeps_cons_ne _ _ _ _ hne, getDeps_cons_self]
    rw [dfsList_cons, dfs_succ]
    rw [if_pos (by simp)]
    simp only [dfsList_nil]
    simp [List.erase_cons, hne, hne2]
    rw [dfsList_cons, dfs_succ]
    rw [if_neg (by simp), if_pos (by simp)]
    rfl
  refine ⟨runCycles_eq _ _ hrun, ?_, mkIssue_severity _ _, mkIssue_ruleId _ _⟩
  rw [circularDepsRun_eq _ _ hrun]
  rfl

/-- Witness for C2 at the repository's own two-file test snapshot. -/
theorem c2_witness :
    normalize fileA.relPath ≠ normalize fileB.relPath ∧
    depsOfFile fileA snapTwo = [normalize fileB.relPath] ∧
    depsOfFile fileB snapTwo = [normalize fileA.relPath] ∧
    runCycles snapTwo =
      some [[normalize fileA.relPath, normalize fileB.relPath, normalize fileA.relPath]] ∧
    circularDepsRun snapTwo = some [mkIssue snapTwo
      [normalize fileA.relPath, normalize fileB.relPath, normalize fileA.relPath]] ∧
    (mkIssue snapTwo [normalize fileA.relPath, normalize fileB.relPath,
      normalize fileA.relPath]).severity = Severity.ERROR ∧
    (mkIssue snapTwo [normalize fileA.relPath, normalize fileB.relPath,
      normalize fileA.relPath]).ruleId = "circular-deps" := by
  have h := c2_mutual_import_one_issue fileA fileB (by decide) (by decide) (by decide)
  exact ⟨by decide, by decide, by decide, h.1, h.2.1, h.2.2.1, h.2.2.2⟩

/-- C5 counterexample: the content `import "./b";` contains neither `from` nor
`require` anywhere, yet the extractor yields the specifier `./b` — a bare
side-effect import also matches the pattern, so the extractor does not yield
specifiers only for `from`-style imports and `require` calls. -/
theorem c5_counterexample :
    scanImports bareContent = ["./b"] ∧
    ¬ ("from".toList <:+: bareContent.toList) ∧
    ¬ ("require".toList <:+: bareContent.toList) := by
  exact ⟨by decide, by decide, by decide⟩

/-- C5 amended: the extractor yields a specifier only for a `from`-style
quoted import, a bare side-effect import statement of the form `import "spec"`
(the from-clause of the pattern is optional), or a `require(...)` call with a
quoted argument; every specifier not starting with a dot is discarded before
resolution, so a non-relative import such as `from "react"` never contributes
an edge and never appears in a reported cycle, even co-located with a
relative import that does form one. -/
theorem c5_amended_extractor (content : String) :
    (∀ km s, (km, s) ∈ scanTagged content →
      fromOccL content.toList s.toList ∨ bareOccL content.toList s.toList ∨
        requireOccL content.toList s.toList) ∧
    (∀ (f : ScannedFile) (files : List ScannedFile) (d : String),
      d ∈ depsOfFile f files →
      ∃ raw, raw ∈ scanImports f.content ∧ strStartsWith "." raw = true ∧
        resolveRelativeToKnownFile f.relPath raw files = some d) ∧
    buildGraph snapReact = [("src/a.ts", ["src/b.ts"]), ("src/b.ts", ["src/a.ts"])] ∧
    runCycles snapReact = some [["src/a.ts", "src/b.ts", "src/a.ts"]] ∧
    "react" ∉ ["src/a.ts", "src/b.ts", "src/a.ts"] := by
  refine ⟨?_, ?_, by decide, by decide, by decide⟩
  · intro km s h
    have hp := scanTagged_provenance content km s h
    cases km with
    | fromImport => exact Or.inl (hp.1 rfl)
    | bareImport => exact Or.inr (Or.inl (hp.2.1 rfl))
    | requireCall => exact Or.inr (Or.inr (hp.2.2 rfl))
  · intro f files d hd
    rcases (mem_depsOfFile f files d).mp hd with ⟨raw, hraw, _, hdot, hres⟩
    exact ⟨raw, hraw, hdot, hres⟩

/-- Witness for the amended C5: the bare import is tagged as such and has a
bare-import occurrence; the `react` snapshot's only edge comes from the
dotted specifier `./b`. -/
theorem c5_amended_witness :
    (MatchKind.bareImport, "./b") ∈ scanTagged bareContent ∧
    (fromOccL bareContent.toList "./b".toList ∨
      bareOccL bareContent.toList "./b".toList ∨
      requireOccL bareContent.toList "./b".toList) ∧
    "src/b.ts" ∈ depsOfFile reactA snapReact ∧
    (∃ raw, raw ∈ scanImports reactA.content ∧ strStartsWith "." raw = true ∧
      resolveRelativeToKnownFile reactA.relPath raw snapReact = some "src/b.ts") := by
  have h := c5_amended_extractor bareContent
  exact ⟨by decide, h.1 MatchKind.bareImport "./b" (by decide), by decide,
         h.2.1 reactA snapReact "src/b.ts" (by decide)⟩

/-- C8: the transitive-closure variant and the DFS variant are not
extensionally equal: on the two-file snapshot with a single real cycle, the
closure variant re-reports the cycle from both entry nodes and returns two
issues, while the DFS variant returns exactly one. -/
theorem c8_variants_not_equal :
    (TC.run snapTwo).map (fun l => l.map Issue.id) =
      some ["cycle:src/a.ts->src/b.ts->src/a.ts", "cycle:src/b.ts->src/a.ts->src/b.ts"] ∧
    (circularDepsRun snapTwo).map (fun l => l.map Issue.id) =
      some ["cycle:src/a.ts->src/b.ts->src/a.ts"] ∧
    (TC.run snapTwo).map List.length = some 2 ∧
    (circularDepsRun snapTwo).map List.length = some 1 ∧
    TC.run snapTwo ≠ circularDepsRun snapTwo := by
  exact ⟨by decide, by decide, by decide, by decide, by decide⟩

end ReactDoctor

